import Mathlib

/-!
A shallow embedding of the core linting pipeline of `markdownlint-rs`
(document model, rule registry and dispatch, fix engine), together with
theorems checking the natural-language specification against it.

Strings that the fix engine manipulates are modelled as `List Char`,
matching the Rust code's explicit use of `Vec<char>` and `str::chars`
for column arithmetic.  Fallible Rust functions returning
`Result<_, MarkdownlintError>` are modelled with `Except`; a slice-range
panic (possible in `Vec::splice` for degenerate line ranges) is modelled
as a distinguished `panic` error value so that it is never confused with
a returned `Fix` error.
-/

namespace Markdownlint

/-- Character-list model of a Rust `String` / `&str`. -/
abbrev Str := List Char

/-- Model of `serde_json::Value`. -/
inductive Json where
  | null : Json
  | bool (b : Bool) : Json
  | num (n : Int) : Json
  | str (s : String) : Json
  | arr (xs : List Json) : Json
  | obj (fields : List (String × Json)) : Json
deriving BEq

/-- Model of `types.rs` `Fix`: a textual region to replace.
`line_start`/`line_end` are 1-indexed inclusive; columns, when present,
are 1-indexed with inclusive start and exclusive-at-`column_end`
splicing semantics. -/
structure Fix where
  line_start : Nat
  line_end : Nat
  column_start : Option Nat
  column_end : Option Nat
  replacement : Str
  description : String
deriving DecidableEq, Repr

/-- Model of `types.rs` `Violation`. -/
structure Violation where
  line : Nat
  column : Option Nat
  rule : String
  message : String
  fix : Option Fix
deriving DecidableEq, Repr

/-- Model of `error.rs` `MarkdownlintError`, restricted to the variants the
embedded core can produce.  `panic` is not a Rust `Result` error: it marks
the slice-range panic reachable in `Vec::splice` for degenerate fixes. -/
inductive LintError where
  | fixErr (msg : String) : LintError
  | panic (msg : String) : LintError
deriving DecidableEq, Repr

/-! ## Rust `str::lines`

`str::lines` splits at every `'\n'` (keeping no trailing empty piece) and
then strips one trailing `"\n"` and, after that, one trailing `"\r"` from
each piece.  We model it via `split_inclusive('\n')`. -/

/-- `split_inclusive('\n')`: cut after every `'\n'`, keeping the
terminator inside the piece; no empty trailing piece is produced. -/
def splitInclusiveNewline : Str → List Str
  | [] => []
  | c :: rest =>
    if c = '\n' then [c] :: splitInclusiveNewline rest
    else
      match splitInclusiveNewline rest with
      | [] => [[c]]
      | p :: ps => (c :: p) :: ps

/-- Strip one trailing `'\n'` and then one trailing `'\r'`, exactly as the
map inside Rust's `str::lines` does. -/
def rustLineOf (piece : Str) : Str :=
  if piece.getLast? = some '\n' then
    let p := piece.dropLast
    if p.getLast? = some '\r' then p.dropLast else p
  else piece

/-- Model of `content.lines().collect()`. -/
def rustLines (s : Str) : List Str :=
  (splitInclusiveNewline s).map rustLineOf

/-! ## `fix/fixer.rs` -/

/-- `detect_line_ending`'s test `content.contains("\r\n")`. -/
def containsCRLF : Str → Bool
  | [] => false
  | '\r' :: '\n' :: _ => true
  | _ :: rest => containsCRLF rest

/-- Rust `Vec<String>::join(sep)`: the separator goes only between
elements. -/
def joinSep (sep : Str) : List Str → Str
  | [] => []
  | [l] => l
  | l :: ls => l ++ sep ++ joinSep sep ls

/-- `fixer.rs` `detect_line_ending`. -/
def detect_line_ending (content : Str) : Str :=
  if containsCRLF content then ['\r', '\n'] else ['\n']

/-- `fixer.rs` `fixes_overlap`. -/
def fixes_overlap (a b : Fix) : Bool :=
  if a.line_end < b.line_start ∨ b.line_end < a.line_start then
    false
  else if a.line_start = b.line_start ∧ a.line_end = b.line_end then
    match a.column_start, a.column_end, b.column_start, b.column_end with
    | some as_, some ae, some bs, some be => decide (¬(ae < bs ∨ be < as_))
    | _, _, _, _ => true
  else
    true

/-- `fixer.rs` `has_overlaps`: some pair `i < j` overlaps. -/
def has_overlaps : List Fix → Bool
  | [] => false
  | f :: rest => rest.any (fun g => fixes_overlap f g) || has_overlaps rest

/-- The comparator inside `apply_fixes_to_content`'s `sort_by`: line
descending, then (only when both fixes carry a start column) column
descending. -/
def fixCmp (a b : Fix) : Ordering :=
  match compare b.line_start a.line_start with
  | Ordering.eq =>
    match b.column_start, a.column_start with
    | some bc, some ac => compare bc ac
    | _, _ => Ordering.eq
  | other => other

/-- Insert into a sorted list, moving right past strictly-greater
elements only: the stable insertion step. -/
def insertCmp {α : Type} (cmp : α → α → Ordering) (a : α) : List α → List α
  | [] => [a]
  | b :: l => if cmp a b = Ordering.gt then b :: insertCmp cmp a l else a :: b :: l

/-- Stable comparison sort (model of Rust's stable `sort_by`). -/
def sortByCmp {α : Type} (cmp : α → α → Ordering) : List α → List α
  | [] => []
  | a :: l => insertCmp cmp a (sortByCmp cmp l)

/-- `fixer.rs` `apply_single_fix`.  Mirrors the source: bounds checks on
both lines, then the column branch (single line with both columns), then
single-line wholesale replacement, then the multi-line `Vec::splice`.
A `splice` whose converted range would have `start > end` panics in Rust;
we return `LintError.panic` there. -/
def apply_single_fix (lines : List Str) (fix : Fix) : Except LintError (List Str) :=
  if fix.line_start - 1 ≥ lines.length then
    .error (.fixErr ("Fix start line " ++ toString fix.line_start ++ " out of bounds"))
  else if fix.line_end - 1 ≥ lines.length then
    .error (.fixErr ("Fix end line " ++ toString fix.line_end ++ " out of bounds"))
  else
    match fix.column_start, fix.column_end with
    | some col_start, some col_end =>
      if fix.line_start - 1 = fix.line_end - 1 then
        if col_start > (lines.getD (fix.line_start - 1) []).length ∨
            col_end > (lines.getD (fix.line_start - 1) []).length then
          .error (.fixErr ("Fix column range " ++ toString col_start ++ ".." ++
            toString col_end ++ " out of bounds for line length " ++
            toString (lines.getD (fix.line_start - 1) []).length))
        else
          .ok (lines.set (fix.line_start - 1)
            ((lines.getD (fix.line_start - 1) []).take (col_start - 1) ++ fix.replacement ++
              (lines.getD (fix.line_start - 1) []).drop col_end))
      else
        -- multi-line with columns: the line-based splice branch
        if fix.line_start - 1 > fix.line_end - 1 + 1 then
          .error (.panic "slice index range start is greater than end")
        else
          .ok (lines.take (fix.line_start - 1) ++ rustLines fix.replacement ++
            lines.drop (fix.line_end - 1 + 1))
    | _, _ =>
      if fix.line_start - 1 = fix.line_end - 1 then
        .ok (lines.set (fix.line_start - 1) fix.replacement)
      else
        if fix.line_start - 1 > fix.line_end - 1 + 1 then
          .error (.panic "slice index range start is greater than end")
        else
          .ok (lines.take (fix.line_start - 1) ++ rustLines fix.replacement ++
            lines.drop (fix.line_end - 1 + 1))

/-- The `for fix in sorted_fixes { apply_single_fix(&mut lines, &fix)?; }`
loop. -/
def apply_all (lines : List Str) : List Fix → Except LintError (List Str)
  | [] => .ok lines
  | f :: rest =>
    match apply_single_fix lines f with
    | .ok lines2 => apply_all lines2 rest
    | .error e => .error e

/-- `fixer.rs` `Fixer::apply_fixes_to_content`. -/
def apply_fixes_to_content (content : Str) (fixes : List Fix) : Except LintError Str :=
  if fixes.isEmpty then
    .ok content
  else
    let line_ending := detect_line_ending content
    let lines := rustLines content
    let sorted_fixes := sortByCmp fixCmp fixes
    if has_overlaps sorted_fixes then
      .error (.fixErr "Cannot apply fixes: overlapping fix ranges detected")
    else
      match apply_all lines sorted_fixes with
      | .ok final => .ok (joinSep line_ending final)
      | .error e => .error e

/-! ## `markdown/parser.rs` -/

/-- Byte length of a line, as Rust's `str::len` computes it (UTF-8). -/
def byteLen (l : Str) : Nat := (l.map Char.utf8Size).sum

/-- Model of `MarkdownParser`: the content and its line slices.  The
structural event stream produced by `pulldown_cmark` is not needed by
the claims settled here. -/
structure MarkdownParser where
  content : Str
  lines : List Str

/-- `MarkdownParser::new`. -/
def MarkdownParser.new (content : Str) : MarkdownParser :=
  ⟨content, rustLines content⟩

/-- The loop inside `offset_to_position`: walk the lines, counting each
line as its byte length plus one terminator byte. -/
def offsetToPositionGo (offset : Nat) : List Str → Nat → Nat → Nat × Nat
  | [], lineNum, _ => (lineNum, 1)
  | line :: rest, lineNum, current =>
    let lineLen := byteLen line + 1
    if offset < current + lineLen then (lineNum + 1, offset - current + 1)
    else offsetToPositionGo offset rest (lineNum + 1) (current + lineLen)

/-- `parser.rs` `offset_to_position` (both components 1-indexed per the
code's intent; the fallthrough returns `(self.lines.len(), 1)`). -/
def offset_to_position (p : MarkdownParser) (offset : Nat) : Nat × Nat :=
  offsetToPositionGo offset p.lines 0 0

/-! ## `config/types.rs`, `lint/rule.rs`, `lint/engine.rs` -/

/-- Model of `config/types.rs` `RuleConfig` (untagged: a bool or a
string-keyed map of JSON values). -/
inductive RuleConfig where
  | enabled (b : Bool) : RuleConfig
  | config (cfg : List (String × Json)) : RuleConfig

/-- Model of `config/types.rs` `Config`, restricted to the one field the
lint engine reads (`config: HashMap<String, RuleConfig>`, modelled as an
association list looked up by key).  The remaining CLI-facing fields are
not consulted by the embedded core. -/
structure Config where
  config : List (String × RuleConfig)

/-- `self.config.config.get(rule.name())`. -/
def Config.get (c : Config) (name : String) : Option RuleConfig :=
  c.config.lookup name

/-- Model of the `Rule` trait object: its name and its `check` function
(the per-rule logic is opaque to the engine). -/
structure Rule where
  name : String
  description : String
  tags : List String
  fixable : Bool
  check : MarkdownParser → Option Json → List Violation

/-- Model of `lint/rule.rs` `RuleRegistry`: a name-keyed map of rules
(`HashMap<String, Box<dyn Rule>>`), as an association list. -/
structure RuleRegistry where
  rules : List (String × Rule)

/-- `RuleRegistry::new` (`Default`): the empty registry. -/
def RuleRegistry.new : RuleRegistry := ⟨[]⟩

/-- `RuleRegistry::register`: `HashMap::insert` keyed by `rule.name()`
(replaces an existing entry with the same key). -/
def RuleRegistry.register (reg : RuleRegistry) (rule : Rule) : RuleRegistry :=
  if (reg.rules.lookup rule.name).isSome then
    ⟨reg.rules.map (fun p => if p.1 = rule.name then (rule.name, rule) else p)⟩
  else
    ⟨reg.rules ++ [(rule.name, rule)]⟩

/-- `RuleRegistry::all_rules`: the registered rule values. -/
def RuleRegistry.all_rules (reg : RuleRegistry) : List Rule :=
  reg.rules.map (fun p => p.2)

/-- Model of `lint/engine.rs` `LintEngine`. -/
structure LintEngine where
  config : Config
  registry : RuleRegistry

/-- `LintEngine::new`: stores the config and builds its registry with
`RuleRegistry::new()` — the empty registry.  (It does not call
`create_default_registry`.) -/
def LintEngine.new (config : Config) : LintEngine :=
  ⟨config, RuleRegistry.new⟩

/-- The three-way enablement decision in `lint_content`'s loop body:
`none` means the rule is skipped (`continue`), `some cv` means
`rule.check(&parser, cv)` runs with config value `cv`. -/
def dispatchConfigValue (rc : Option RuleConfig) : Option (Option Json) :=
  match rc with
  | some (.enabled false) => none
  | some (.enabled true) => some none
  | some (.config cfg) =>
    match cfg.lookup "enabled" with
    | some (.bool false) => none
    | _ => some (some (.obj cfg))
  | none => some none

/-- One iteration of `lint_content`'s rule loop: the violations the rule
contributes given the engine's config. -/
def rule_contribution (config : Config) (parser : MarkdownParser) (rule : Rule) :
    List Violation :=
  match dispatchConfigValue (config.get rule.name) with
  | none => []
  | some cv => rule.check parser cv

/-- The comparator of `all_violations.sort_by(|a, b| a.line.cmp(&b.line))`. -/
def vioCmp (a b : Violation) : Ordering := compare a.line b.line

/-- The concatenated, unsorted violations of `lint_content`'s loop. -/
def raw_violations (e : LintEngine) (content : Str) : List Violation :=
  (e.registry.all_rules).flatMap
    (rule_contribution e.config (MarkdownParser.new content))

/-- `lint/engine.rs` `LintEngine::lint_content` (always `Ok` in the
source; the `Result` wrapper is dropped). -/
def lint_content (e : LintEngine) (content : Str) : List Violation :=
  sortByCmp vioCmp (raw_violations e content)

/-! ## Statement vocabulary -/

instance {ε α : Type} [DecidableEq ε] [DecidableEq α] : DecidableEq (Except ε α) := fun a b =>
  match a, b with
  | .ok x, .ok y =>
    if h : x = y then .isTrue (by rw [h]) else .isFalse (by simp [h])
  | .ok _, .error _ => .isFalse (by simp)
  | .error _, .ok _ => .isFalse (by simp)
  | .error x, .error y =>
    if h : x = y then .isTrue (by rw [h]) else .isFalse (by simp [h])

/-- Walk a string remembering the previous character; every `'\n'` must
be preceded by `'\r'`. -/
def lfOkAux (prev : Char) : Str → Bool
  | [] => true
  | c :: rest => (decide (c ≠ '\n') || decide (prev = '\r')) && lfOkAux c rest

/-- "Every line break is `"\r\n"`": each `'\n'` in the character list is
immediately preceded by `'\r'` (the dummy initial previous character is
not `'\r'`, so a leading `'\n'` fails). -/
def lfPrecededByCR (s : Str) : Bool := lfOkAux ' ' s

/-! ## Structure of `rustLines` -/

theorem splitInclusiveNewline_eq_nil_iff (s : Str) :
    splitInclusiveNewline s = [] ↔ s = [] := by
  constructor
  · intro h
    cases s with
    | nil => rfl
    | cons c rest =>
      unfold splitInclusiveNewline at h
      by_cases hc : c = '\n'
      · rw [if_pos hc] at h; exact List.noConfusion h
      · rw [if_neg hc] at h
        cases hsp : splitInclusiveNewline rest with
        | nil => rw [hsp] at h; exact List.noConfusion h
        | cons p ps => rw [hsp] at h; exact List.noConfusion h
  · intro h; rw [h]; rfl

theorem splitInclusiveNewline_ne_nil (s : Str) : ∀ p ∈ splitInclusiveNewline s, p ≠ [] := by
  induction s with
  | nil => intro p hp; exact absurd hp (List.not_mem_nil p)
  | cons c rest ih =>
    intro p hp
    unfold splitInclusiveNewline at hp
    by_cases hc : c = '\n'
    · rw [if_pos hc] at hp
      rcases List.mem_cons.mp hp with h | h
      · rw [h]; exact List.noConfusion
      · exact ih p h
    · rw [if_neg hc] at hp
      cases hsp : splitInclusiveNewline rest with
      | nil =>
        rw [hsp] at hp
        rcases List.mem_singleton.mp hp with h
        rw [h]; exact List.noConfusion
      | cons q ps =>
        rw [hsp] at hp
        rcases List.mem_cons.mp hp with h | h
        · rw [h]; exact List.noConfusion
        · exact ih p (hsp ▸ List.mem_cons_of_mem q h)

theorem splitInclusiveNewline_nl_only_last (s : Str) :
    ∀ p ∈ splitInclusiveNewline s, '\n' ∉ p.dropLast := by
  induction s with
  | nil => intro p hp; exact absurd hp (List.not_mem_nil p)
  | cons c rest ih =>
    intro p hp
    unfold splitInclusiveNewline at hp
    by_cases hc : c = '\n'
    · rw [if_pos hc] at hp
      rcases List.mem_cons.mp hp with h | h
      · rw [h]; simp
      · exact ih p h
    · rw [if_neg hc] at hp
      cases hsp : splitInclusiveNewline rest with
      | nil =>
        rw [hsp] at hp
        rcases List.mem_singleton.mp hp with h
        rw [h]; simp
      | cons q ps =>
        rw [hsp] at hp
        rcases List.mem_cons.mp hp with h | h
        · rw [h]
          have hq : q ≠ [] :=
            splitInclusiveNewline_ne_nil rest q (hsp ▸ List.mem_cons_self q ps)
          have hqd : '\n' ∉ q.dropLast := ih q (hsp ▸ List.mem_cons_self q ps)
          rw [List.dropLast_cons_of_ne_nil hq]
          intro hmem
          rcases List.mem_cons.mp hmem with h1 | h1
          · exact hc h1.symm
          · exact hqd h1
        · exact ih p (hsp ▸ List.mem_cons_of_mem q h)

theorem no_newline_of_nl_only_last (p : Str) (hd : '\n' ∉ p.dropLast)
    (hl : p.getLast? ≠ some '\n') : '\n' ∉ p := by
  rcases p.eq_nil_or_concat with h | ⟨q, c, rfl⟩
  · rw [h]; exact List.not_mem_nil '\n'
  · rw [List.concat_eq_append] at hd hl ⊢
    rw [List.dropLast_concat] at hd
    rw [List.getLast?_concat] at hl
    intro hmem
    rcases List.mem_append.mp hmem with h1 | h1
    · exact hd h1
    · rcases List.mem_singleton.mp h1 with h2
      exact hl (by rw [h2])

/-- Every line that `str::lines` yields is free of `'\n'`. -/
theorem rustLines_no_newline (s : Str) : ∀ l ∈ rustLines s, '\n' ∉ l := by
  intro l hl
  rcases List.mem_map.mp hl with ⟨p, hp, rfl⟩
  have hd := splitInclusiveNewline_nl_only_last s p hp
  unfold rustLineOf
  by_cases h1 : p.getLast? = some '\n'
  · rw [if_pos h1]
    by_cases h2 : p.dropLast.getLast? = some '\r'
    · rw [if_pos h2]
      intro hmem
      exact hd ((List.dropLast_sublist p.dropLast).mem hmem)
    · rw [if_neg h2]
      intro hmem
      exact hd hmem
  · rw [if_neg h1]
    exact no_newline_of_nl_only_last p hd h1

/-! ## `lfOkAux` and `joinSep` lemmas -/

theorem lfOkAux_of_no_lf (xs : Str) (hx : '\n' ∉ xs) : ∀ p, lfOkAux p xs = true := by
  induction xs with
  | nil => intro p; rfl
  | cons c rest ih =>
    intro p
    have hc : c ≠ '\n' := fun h => hx (h ▸ List.mem_cons_self c rest)
    unfold lfOkAux
    rw [ih (fun h => hx (List.mem_cons_of_mem c h)) c]
    simp [hc]

theorem lfOkAux_append_of_no_lf (xs ys : Str) (hx : '\n' ∉ xs) :
    ∀ p, lfOkAux p (xs ++ ys) = lfOkAux (xs.getLastD p) ys := by
  induction xs with
  | nil => intro p; rfl
  | cons c rest ih =>
    intro p
    have hc : c ≠ '\n' := fun h => hx (h ▸ List.mem_cons_self c rest)
    show ((decide (c ≠ '\n') || decide (p = '\r')) && lfOkAux c (rest ++ ys)) = _
    rw [ih (fun h => hx (List.mem_cons_of_mem c h)) c]
    cases rest with
    | nil => simp [hc]
    | cons d t =>
      have h1 : (c :: d :: t).getLastD p = (d :: t).getLastD c := by
        rw [List.getLastD_eq_getLast?, List.getLastD_eq_getLast?, List.getLast?_cons_cons,
          List.getLast?_eq_getLast (d :: t) (by simp)]
        rfl
      rw [h1]
      simp [hc]

theorem lfOkAux_irrel (ys : Str) (hy : ys.head? ≠ some '\n') (p q : Char) :
    lfOkAux p ys = lfOkAux q ys := by
  cases ys with
  | nil => rfl
  | cons c rest =>
    have hc : c ≠ '\n' := fun h => hy (by rw [List.head?_cons, h])
    show ((decide (c ≠ '\n') || _) && lfOkAux c rest) =
      ((decide (c ≠ '\n') || _) && lfOkAux c rest)
    simp [hc]

theorem joinSep_crlf_head (ls : List Str) (h : ∀ l ∈ ls, '\n' ∉ l) :
    (joinSep ['\r', '\n'] ls).head? ≠ some '\n' := by
  cases ls with
  | nil => simp [joinSep]
  | cons x t =>
    cases t with
    | nil =>
      show x.head? ≠ some '\n'
      cases x with
      | nil => simp
      | cons c r =>
        have hc : c ≠ '\n' :=
          fun hcc => h (c :: r) (List.mem_cons_self _ _) (hcc ▸ List.mem_cons_self c r)
        rw [List.head?_cons]
        intro hs
        exact hc (Option.some.inj hs)
    | cons y t2 =>
      show (x ++ ['\r', '\n'] ++ joinSep ['\r', '\n'] (y :: t2)).head? ≠ some '\n'
      cases x with
      | nil => simp
      | cons c r =>
        have hc : c ≠ '\n' :=
          fun hcc => h (c :: r) (List.mem_cons_self _ _) (hcc ▸ List.mem_cons_self c r)
        simp only [List.cons_append, List.head?_cons]
        intro hs
        exact hc (Option.some.inj hs)

theorem lfOkAux_joinSep_crlf (ls : List Str) (h : ∀ l ∈ ls, '\n' ∉ l) :
    ∀ p, lfOkAux p (joinSep ['\r', '\n'] ls) = true := by
  induction ls with
  | nil => intro p; rfl
  | cons x t ih =>
    intro p
    cases t with
    | nil => exact lfOkAux_of_no_lf x (h x (List.mem_cons_self _ _)) p
    | cons y t2 =>
      show lfOkAux p (x ++ ['\r', '\n'] ++ joinSep ['\r', '\n'] (y :: t2)) = true
      rw [List.append_assoc]
      rw [lfOkAux_append_of_no_lf x _ (h x (List.mem_cons_self _ _)) p]
      show ((decide (('\r' : Char) ≠ '\n') || _) &&
        lfOkAux '\r' ('\n' :: joinSep ['\r', '\n'] (y :: t2))) = true
      have htail : ∀ l ∈ y :: t2, '\n' ∉ l := fun l hl => h l (List.mem_cons_of_mem x hl)
      rw [show lfOkAux '\r' ('\n' :: joinSep ['\r', '\n'] (y :: t2)) =
          ((decide (('\n' : Char) ≠ '\n') || decide (('\r' : Char) = '\r')) &&
            lfOkAux '\n' (joinSep ['\r', '\n'] (y :: t2))) from rfl]
      rw [lfOkAux_irrel _ (joinSep_crlf_head (y :: t2) htail) '\n' p]
      rw [ih htail p]
      simp

/-! ## Sorting infrastructure -/

theorem insertCmp_perm {α : Type} (cmp : α → α → Ordering) (a : α) (l : List α) :
    (insertCmp cmp a l).Perm (a :: l) := by
  induction l with
  | nil => exact List.Perm.refl _
  | cons b l ih =>
    unfold insertCmp
    by_cases h : cmp a b = Ordering.gt
    · simp only [h, if_true]
      exact (ih.cons b).trans (List.Perm.swap a b l)
    · simp [h]

theorem sortByCmp_perm {α : Type} (cmp : α → α → Ordering) (l : List α) :
    (sortByCmp cmp l).Perm l := by
  induction l with
  | nil => exact List.Perm.refl _
  | cons a l ih => exact (insertCmp_perm cmp a (sortByCmp cmp l)).trans (ih.cons a)

theorem mem_sortByCmp {α : Type} {cmp : α → α → Ordering} {l : List α} {x : α} :
    x ∈ sortByCmp cmp l ↔ x ∈ l :=
  (sortByCmp_perm cmp l).mem_iff

/-- Insertion preserves sortedness, with swap-coherence assumed globally
and transitivity assumed only on a predicate `P` covering the elements. -/
theorem insertCmp_pairwise {α : Type} (cmp : α → α → Ordering)
    (hsw : ∀ x y, cmp x y = Ordering.gt → cmp y x ≠ Ordering.gt)
    (P : α → Prop)
    (htrans : ∀ x y z, P x → P y → P z →
      cmp x y ≠ Ordering.gt → cmp y z ≠ Ordering.gt → cmp x z ≠ Ordering.gt)
    (a : α) (l : List α) (hPa : P a) (hPl : ∀ x ∈ l, P x)
    (hl : l.Pairwise (fun x y => cmp x y ≠ Ordering.gt)) :
    (insertCmp cmp a l).Pairwise (fun x y => cmp x y ≠ Ordering.gt) := by
  induction l with
  | nil => simp [insertCmp]
  | cons b l ih =>
    rcases List.pairwise_cons.mp hl with ⟨hbl, hltail⟩
    unfold insertCmp
    by_cases h : cmp a b = Ordering.gt
    · simp only [h, if_true]
      refine List.pairwise_cons.mpr ⟨?_, ?_⟩
      · intro x hx
        rcases List.mem_cons.mp ((insertCmp_perm cmp a l).mem_iff.mp hx) with hxa | hxl
        · exact hxa ▸ hsw a b h
        · exact hbl x hxl
      · exact ih (fun x hx => hPl x (List.mem_cons_of_mem b hx)) hltail
    · simp only [h, if_false]
      refine List.pairwise_cons.mpr ⟨?_, hl⟩
      intro x hx
      rcases List.mem_cons.mp hx with hxb | hxl
      · exact hxb ▸ h
      · exact htrans a b x hPa (hPl b (List.mem_cons_self b l))
          (hPl x (List.mem_cons_of_mem b hxl)) h (hbl x hxl)

theorem sortByCmp_pairwise {α : Type} (cmp : α → α → Ordering)
    (hsw : ∀ x y, cmp x y = Ordering.gt → cmp y x ≠ Ordering.gt)
    (P : α → Prop)
    (htrans : ∀ x y z, P x → P y → P z →
      cmp x y ≠ Ordering.gt → cmp y z ≠ Ordering.gt → cmp x z ≠ Ordering.gt)
    (l : List α) (hPl : ∀ x ∈ l, P x) :
    (sortByCmp cmp l).Pairwise (fun x y => cmp x y ≠ Ordering.gt) := by
  induction l with
  | nil => simp [sortByCmp]
  | cons a l ih =>
    refine insertCmp_pairwise cmp hsw P htrans a (sortByCmp cmp l)
      (hPl a (List.mem_cons_self a l)) ?_ (ih (fun x hx => hPl x (List.mem_cons_of_mem a hx)))
    intro x hx
    exact hPl x (List.mem_cons_of_mem a (mem_sortByCmp.mp hx))

/-- Two sorted permutations of each other are equal, with antisymmetry
assumed only on the elements involved. -/
theorem sorted_perm_unique {α : Type} (le : α → α → Prop) :
    ∀ (l₁ l₂ : List α), l₁.Perm l₂ → l₁.Pairwise le → l₂.Pairwise le →
      (∀ x y, x ∈ l₁ → y ∈ l₁ → le x y → le y x → x = y) → l₁ = l₂ := by
  intro l₁
  induction l₁ with
  | nil =>
    intro l₂ p _ _ _
    exact (List.Perm.nil_eq p).symm ▸ rfl
  | cons a t ih =>
    intro l₂ p h₁ h₂ hanti
    cases l₂ with
    | nil => exact absurd p.symm (by simp)
    | cons b t₂ =>
      have hbmem : b ∈ a :: t := p.mem_iff.mpr (List.mem_cons_self b t₂)
      have hamem : a ∈ b :: t₂ := p.mem_iff.mp (List.mem_cons_self a t)
      have hab : a = b := by
        rcases List.mem_cons.mp hbmem with h | hbt
        · exact h.symm
        rcases List.mem_cons.mp hamem with h | hat₂
        · exact h
        have h1 : le a b := (List.pairwise_cons.mp h₁).1 b hbt
        have h2 : le b a := (List.pairwise_cons.mp h₂).1 a hat₂
        exact hanti a b (List.mem_cons_self a t) hbmem h1 h2
      subst hab
      have ht : t.Perm t₂ := List.Perm.cons_inv p
      have : t = t₂ := by
        refine ih t₂ ht h₁.tail h₂.tail ?_
        intro x y hx hy hxy hyx
        exact hanti x y (List.mem_cons_of_mem a hx) (List.mem_cons_of_mem a hy) hxy hyx
      rw [this]

/-! ## Overlap-detection lemmas -/

theorem fixes_overlap_comm (a b : Fix) : fixes_overlap a b = fixes_overlap b a := by
  unfold fixes_overlap
  by_cases h1 : a.line_end < b.line_start ∨ b.line_end < a.line_start
  · rw [if_pos h1, if_pos (Or.symm h1)]
  · rw [if_neg h1, if_neg (fun h => h1 (Or.symm h))]
    by_cases h2 : a.line_start = b.line_start ∧ a.line_end = b.line_end
    · rw [if_pos h2, if_pos ⟨h2.1.symm, h2.2.symm⟩]
      cases a.column_start <;> cases a.column_end <;>
        cases b.column_start <;> cases b.column_end <;>
        first
        | rfl
        | exact decide_eq_decide.mpr (by tauto)
    · rw [if_neg h2, if_neg (fun h => h2 ⟨h.1.symm, h.2.symm⟩)]

theorem has_overlaps_eq_false_iff (l : List Fix) :
    has_overlaps l = false ↔ l.Pairwise (fun a b => fixes_overlap a b = false) := by
  induction l with
  | nil => simp [has_overlaps]
  | cons f rest ih =>
    simp only [has_overlaps, Bool.or_eq_false_iff, List.any_eq_false, List.pairwise_cons, ih,
      Bool.not_eq_true]

theorem has_overlaps_perm {l l' : List Fix} (p : l.Perm l') :
    has_overlaps l = has_overlaps l' := by
  by_cases h : has_overlaps l' = false
  · have := (has_overlaps_eq_false_iff l').mp h
    have : l.Pairwise (fun a b => fixes_overlap a b = false) :=
      (p.pairwise_iff (fun {x y} hxy => (fixes_overlap_comm y x).trans hxy)).mpr this
    rw [h, (has_overlaps_eq_false_iff l).mpr this]
  · have h' : has_overlaps l' = true := by
      cases hh : has_overlaps l' with
      | false => exact absurd hh h
      | true => rfl
    by_cases hl : has_overlaps l = false
    · have := (has_overlaps_eq_false_iff l).mp hl
      have : l'.Pairwise (fun a b => fixes_overlap a b = false) :=
        (p.pairwise_iff (fun {x y} hxy => (fixes_overlap_comm y x).trans hxy)).mp this
      rw [(has_overlaps_eq_false_iff l').mpr this] at h'
      exact absurd h' (by simp)
    · cases hll : has_overlaps l with
      | false => exact absurd hll hl
      | true => rw [h']

end Markdownlint

namespace Markdownlint

/-- **C1.** The claim says `LintEngine::new` populates its registry with
every built-in rule.  In the source, `LintEngine::new` builds
`RuleRegistry::new()` — the empty `Default` registry — and never calls
`create_default_registry`; consequently `lint_content` consults no rule
at all and returns no violations for any input and any config. -/
theorem lintEngine_new_registry_is_empty (cfg : Config) (content : Str) :
    (LintEngine.new cfg).registry.rules = [] ∧
    lint_content (LintEngine.new cfg) content = [] :=
  ⟨rfl, rfl⟩

/-- **C2, counterexample.** Two fixes with identical `(line_start,
line_end) = (2, 1)` spans and absent columns, applied to `"a\nb"`:
`apply_fixes_to_content` succeeds (the degenerate span slips past
`fixes_overlap`, whose first test `a.line_end < b.line_start` fires, and
`Vec::splice(1..=0, …)` becomes a pure insertion) instead of returning
the Fix error the claim requires. -/
theorem apply_fixes_identical_span_no_error :
    apply_fixes_to_content ('a' :: '\n' :: 'b' :: [])
        [⟨2, 1, none, none, ['X'], ""⟩, ⟨2, 1, none, none, ['Y'], ""⟩]
      = .ok "a\nY\nX\nb".data ∧
    ∀ msg, apply_fixes_to_content ('a' :: '\n' :: 'b' :: [])
        [⟨2, 1, none, none, ['X'], ""⟩, ⟨2, 1, none, none, ['Y'], ""⟩]
      ≠ .error (.fixErr msg) := by
  refine ⟨rfl, fun msg h => ?_⟩
  rw [show apply_fixes_to_content ('a' :: '\n' :: 'b' :: [])
      [⟨2, 1, none, none, ['X'], ""⟩, ⟨2, 1, none, none, ['Y'], ""⟩]
    = .ok "a\nY\nX\nb".data from rfl] at h
  exact Except.noConfusion h

/-- The claim's column-conflict condition on two fixes occupying the same
span: their column ranges overlap, or columns are absent.  This is the
inner match of `fixes_overlap`. -/
def columns_conflict (a b : Fix) : Bool :=
  match a.column_start, a.column_end, b.column_start, b.column_end with
  | some as_, some ae, some bs, some be => decide (¬(ae < bs ∨ be < as_))
  | _, _, _, _ => true

theorem fixes_overlap_of_identical_span (a b : Fix)
    (hls : a.line_start = b.line_start) (hle : a.line_end = b.line_end)
    (hwf : a.line_start ≤ a.line_end) :
    fixes_overlap a b = columns_conflict a b := by
  unfold fixes_overlap columns_conflict
  rw [if_neg (by rintro (h | h) <;> omega), if_pos ⟨hls, hle⟩]

/-- **C2, amended.** For fixes with well-formed spans
(`line_start ≤ line_end`): whenever the list contains two fixes at
distinct positions with identical `(line_start, line_end)` spans whose
column ranges overlap or whose columns are absent,
`apply_fixes_to_content` returns the overlapping-fixes Fix error (the
check runs before any fix is applied, so no partially-applied content is
ever produced). -/
theorem apply_fixes_overlap_rejected (content : Str) (fixes : List Fix)
    (i j : Fin fixes.length) (hij : i ≠ j)
    (hls : (fixes.get i).line_start = (fixes.get j).line_start)
    (hle : (fixes.get i).line_end = (fixes.get j).line_end)
    (hwf : (fixes.get i).line_start ≤ (fixes.get i).line_end)
    (hcol : columns_conflict (fixes.get i) (fixes.get j) = true) :
    apply_fixes_to_content content fixes =
      .error (.fixErr "Cannot apply fixes: overlapping fix ranges detected") := by
  have hov : fixes_overlap (fixes.get i) (fixes.get j) = true := by
    rw [fixes_overlap_of_identical_span _ _ hls hle hwf]; exact hcol
  have hnp : ¬ fixes.Pairwise (fun a b => fixes_overlap a b = false) := by
    intro hp
    rcases Nat.lt_trichotomy i.val j.val with h | h | h
    · have hfalse := List.pairwise_iff_get.mp hp i j h
      rw [hfalse] at hov
      exact Bool.noConfusion hov
    · exact hij (Fin.ext h)
    · have hfalse := List.pairwise_iff_get.mp hp j i h
      rw [fixes_overlap_comm, hfalse] at hov
      exact Bool.noConfusion hov
  have hsorted_ov : has_overlaps (sortByCmp fixCmp fixes) = true := by
    cases hh : has_overlaps (sortByCmp fixCmp fixes) with
    | true => rfl
    | false =>
      have hp := (has_overlaps_eq_false_iff _).mp hh
      exact absurd (((sortByCmp_perm fixCmp fixes).pairwise_iff
        (fun {x y} hxy => (fixes_overlap_comm y x).trans hxy)).mp hp) hnp
  have hnonempty : fixes.isEmpty = false := by
    cases hfx : fixes with
    | nil => exact absurd i.isLt (by simp [hfx])
    | cons f l => rfl
  unfold apply_fixes_to_content
  simp only [hnonempty, Bool.false_eq_true, if_false, hsorted_ov, if_true]

/-- Witness for the amended C2: two whole-line fixes on the same line of
`"hello"` are rejected with the Fix error. -/
theorem apply_fixes_overlap_rejected_witness :
    apply_fixes_to_content "hello".data
        [⟨1, 1, none, none, ['x'], ""⟩, ⟨1, 1, none, none, ['y'], ""⟩] =
      .error (.fixErr "Cannot apply fixes: overlapping fix ranges detected") :=
  apply_fixes_overlap_rejected "hello".data
    [⟨1, 1, none, none, ['x'], ""⟩, ⟨1, 1, none, none, ['y'], ""⟩]
    ⟨0, by decide⟩ ⟨1, by decide⟩ (by decide) rfl rfl (by decide) rfl

/-- **C3, counterexample.** Content containing `"\r\n"` and a successful
fix whose replacement embeds a bare `"\n"` (single-line replacement is
inserted verbatim, not split): the output contains a line break that is
not `"\r\n"`.  With an empty fix list the fast path returns mixed-ending
input byte-for-byte, a second violation of the claim. -/
theorem apply_fixes_crlf_not_preserved :
    apply_fixes_to_content "a\r\nb".data [⟨1, 1, none, none, "X\nY".data, ""⟩]
      = .ok "X\nY\r\nb".data ∧
    lfPrecededByCR "X\nY\r\nb".data = false ∧
    apply_fixes_to_content "a\r\nb\nc".data [] = .ok "a\r\nb\nc".data ∧
    lfPrecededByCR "a\r\nb\nc".data = false := by
  exact ⟨rfl, rfl, rfl, rfl⟩

/-- **C4, counterexample.** Two degenerate fixes with span `(2, 1)` and
no columns form a conflict-free list (`has_overlaps` is `false`), the
internal sort comparator ties (`Ordering.eq`, stable sort keeps input
order), each fix acts as an insertion, and the two input orders produce
different outputs. -/
theorem apply_fixes_order_dependent :
    has_overlaps [⟨2, 1, none, none, ['P'], ""⟩, ⟨2, 1, none, none, ['Q'], ""⟩] = false ∧
    apply_fixes_to_content "a\nb".data
        [⟨2, 1, none, none, ['P'], ""⟩, ⟨2, 1, none, none, ['Q'], ""⟩]
      = .ok "a\nQ\nP\nb".data ∧
    apply_fixes_to_content "a\nb".data
        [⟨2, 1, none, none, ['Q'], ""⟩, ⟨2, 1, none, none, ['P'], ""⟩]
      = .ok "a\nP\nQ\nb".data ∧
    ("a\nQ\nP\nb".data : Str) ≠ "a\nP\nQ\nb".data := by
  refine ⟨rfl, rfl, rfl, by decide⟩

/-- Well-formed fix coordinates: the inclusive line span is non-empty and
the column range, when fully specified, is non-decreasing. -/
def WellFormedFix (f : Fix) : Prop :=
  f.line_start ≤ f.line_end ∧
    ∀ cs ce, f.column_start = some cs → f.column_end = some ce → cs ≤ ce

theorem columns_conflict_eq_false (x y : Fix) (h : columns_conflict x y = false) :
    ∃ xs xe ys ye, x.column_start = some xs ∧ x.column_end = some xe ∧
      y.column_start = some ys ∧ y.column_end = some ye ∧ (xe < ys ∨ ye < xs) := by
  unfold columns_conflict at h
  cases hxs : x.column_start <;> cases hxe : x.column_end <;>
    cases hys : y.column_start <;> cases hye : y.column_end <;>
    rw [hxs, hxe, hys, hye] at h <;>
    first
    | exact Bool.noConfusion h
    | · rename_i xs xe ys ye
        refine ⟨xs, xe, ys, ye, rfl, rfl, rfl, rfl, ?_⟩
        have := of_decide_eq_false h
        omega

theorem fixCmp_eq_gt_iff (a b : Fix) : fixCmp a b = Ordering.gt ↔
    (a.line_start < b.line_start ∨ (a.line_start = b.line_start ∧
      ∃ bc ac, b.column_start = some bc ∧ a.column_start = some ac ∧ ac < bc)) := by
  unfold fixCmp
  cases hc : compare b.line_start a.line_start with
  | lt =>
    have hlt := Nat.compare_eq_lt.mp hc
    constructor
    · intro h; exact Ordering.noConfusion h
    · rintro (h | ⟨h, _⟩) <;> omega
  | eq =>
    have heq := Nat.compare_eq_eq.mp hc
    cases hbc : b.column_start <;> cases hac : a.column_start <;>
      simp_all [Nat.compare_eq_gt]
  | gt =>
    have hgt := Nat.compare_eq_gt.mp hc
    simp [hgt]

theorem overlap_false_span (x y : Fix) (hov : fixes_overlap x y = false)
    (hwx : x.line_start ≤ x.line_end) (hwy : y.line_start ≤ y.line_end)
    (hls : x.line_start = y.line_start) : x.line_end = y.line_end := by
  by_contra hne
  unfold fixes_overlap at hov
  rw [if_neg (by rintro (h | h) <;> omega), if_neg (fun h => hne h.2)] at hov
  exact Bool.noConfusion hov

theorem fixCmp_gt_asymm (x y : Fix) (h : fixCmp x y = Ordering.gt) :
    fixCmp y x ≠ Ordering.gt := by
  intro h'
  rcases (fixCmp_eq_gt_iff x y).mp h with hlt | ⟨heq, bc, ac, hbc, hac, hlt⟩ <;>
    rcases (fixCmp_eq_gt_iff y x).mp h' with hlt' | ⟨heq', bc', ac', hbc', hac', hlt'⟩ <;>
    try omega
  · rw [hbc] at hac'
    rw [hac] at hbc'
    have h1 : bc = ac' := Option.some.inj hac'
    have h2 : ac = bc' := Option.some.inj hbc'
    omega

theorem fixCmp_self (x : Fix) : fixCmp x x = Ordering.eq := by
  unfold fixCmp
  rw [show compare x.line_start x.line_start = Ordering.eq from Nat.compare_eq_eq.mpr rfl]
  cases hc : x.column_start with
  | none => rfl
  | some c =>
    show compare c c = Ordering.eq
    exact Nat.compare_eq_eq.mpr rfl

/-- On a well-formed, non-overlapping pair, `¬ gt` sharpens to a strict
descent in `(line_start, column_start)`. -/
theorem fixCmp_le_strict (x y : Fix) (hwx : WellFormedFix x) (hwy : WellFormedFix y)
    (hov : fixes_overlap x y = false) (hle : fixCmp x y ≠ Ordering.gt) :
    y.line_start < x.line_start ∨
      (y.line_start = x.line_start ∧ ∃ xs ys, x.column_start = some xs ∧
        y.column_start = some ys ∧ ys < xs) := by
  rcases Nat.lt_trichotomy y.line_start x.line_start with h | h | h
  · exact Or.inl h
  · have hspan := overlap_false_span x y hov hwx.1 hwy.1 h.symm
    have hcc : columns_conflict x y = false := by
      rw [← fixes_overlap_of_identical_span x y h.symm hspan hwx.1]
      exact hov
    rcases columns_conflict_eq_false x y hcc with ⟨xs, xe, ys, ye, hxs, hxe, hys, hye, hdis⟩
    have hwcx := hwx.2 xs xe hxs hxe
    have hwcy := hwy.2 ys ye hys hye
    rcases hdis with hd | hd
    · exact absurd ((fixCmp_eq_gt_iff x y).mpr
        (Or.inr ⟨h.symm, ys, xs, hys, hxs, by omega⟩)) hle
    · exact Or.inr ⟨h, xs, ys, hxs, hys, by omega⟩
  · exact absurd ((fixCmp_eq_gt_iff x y).mpr (Or.inl h)) hle

theorem pairwise_overlap_false_of_mem {fixes : List Fix}
    (hconf : has_overlaps fixes = false) {x y : Fix}
    (hx : x ∈ fixes) (hy : y ∈ fixes) (hne : x ≠ y) :
    fixes_overlap x y = false :=
  List.Pairwise.forall (fun {a b} hab => (fixes_overlap_comm b a).trans hab)
    ((has_overlaps_eq_false_iff fixes).mp hconf) hx hy hne

theorem fixCmp_trans_on (fixes : List Fix)
    (hwf : ∀ f ∈ fixes, WellFormedFix f) (hconf : has_overlaps fixes = false) :
    ∀ x y z, x ∈ fixes → y ∈ fixes → z ∈ fixes →
      fixCmp x y ≠ Ordering.gt → fixCmp y z ≠ Ordering.gt → fixCmp x z ≠ Ordering.gt := by
  intro x y z hx hy hz hxy hyz
  by_cases hxz : x = z
  · subst hxz; rw [fixCmp_self]; simp
  by_cases hxyeq : x = y
  · subst hxyeq; exact hyz
  by_cases hyzeq : y = z
  · subst hyzeq; exact hxy
  have h1 := fixCmp_le_strict x y (hwf x hx) (hwf y hy)
    (pairwise_overlap_false_of_mem hconf hx hy hxyeq) hxy
  have h2 := fixCmp_le_strict y z (hwf y hy) (hwf z hz)
    (pairwise_overlap_false_of_mem hconf hy hz hyzeq) hyz
  intro hgt
  rcases (fixCmp_eq_gt_iff x z).mp hgt with h3 | ⟨h3, zc, xc, hzc, hxc, h4⟩
  · rcases h1 with a1 | ⟨a1, _⟩ <;> rcases h2 with a2 | ⟨a2, _⟩ <;> omega
  · rcases h1 with a1 | ⟨a1, xs, ys, hxs, hys, a3⟩ <;>
      rcases h2 with a2 | ⟨a2, ys', zs, hys', hzs, a4⟩ <;> try omega
    have e1 : xs = xc := by rw [hxs] at hxc; exact Option.some.inj hxc
    have e2 : zs = zc := by rw [hzs] at hzc; exact Option.some.inj hzc
    have e3 : ys = ys' := by rw [hys] at hys'; exact Option.some.inj hys'
    omega

theorem fixCmp_antisymm_on (fixes : List Fix)
    (hwf : ∀ f ∈ fixes, WellFormedFix f) (hconf : has_overlaps fixes = false) :
    ∀ x y, x ∈ fixes → y ∈ fixes →
      fixCmp x y ≠ Ordering.gt → fixCmp y x ≠ Ordering.gt → x = y := by
  intro x y hx hy hxy hyx
  by_contra hne
  have h1 := fixCmp_le_strict x y (hwf x hx) (hwf y hy)
    (pairwise_overlap_false_of_mem hconf hx hy hne) hxy
  have h2 := fixCmp_le_strict y x (hwf y hy) (hwf x hx)
    (pairwise_overlap_false_of_mem hconf hy hx (fun h => hne h.symm)) hyx
  rcases h1 with a1 | ⟨a1, xs, ys, hxs, hys, a3⟩ <;>
    rcases h2 with a2 | ⟨a2, ys', xs', hys', hxs', a4⟩ <;> try omega
  have e1 : xs = xs' := by rw [hxs] at hxs'; exact Option.some.inj hxs'
  have e2 : ys = ys' := by rw [hys] at hys'; exact Option.some.inj hys'
  omega

/-- **C4, amended.** For well-formed fixes (`line_start ≤ line_end`, and
`column_start ≤ column_end` when both are present) on which the conflict
check passes, `apply_fixes_to_content` returns the same result for every
permutation of the input fix list: on such lists the internal descending
line/column comparator admits no ties between distinct fixes, so the
stable sort fully normalizes input order. -/
theorem apply_fixes_order_invariant (content : Str) (fixes fixes' : List Fix)
    (hperm : fixes.Perm fixes')
    (hwf : ∀ f ∈ fixes, WellFormedFix f) (hconf : has_overlaps fixes = false) :
    apply_fixes_to_content content fixes = apply_fixes_to_content content fixes' := by
  have hsorteq : sortByCmp fixCmp fixes = sortByCmp fixCmp fixes' := by
    refine sorted_perm_unique (fun x y => fixCmp x y ≠ Ordering.gt) _ _
      ((sortByCmp_perm fixCmp fixes).trans (hperm.trans (sortByCmp_perm fixCmp fixes').symm))
      ?_ ?_ ?_
    · exact sortByCmp_pairwise fixCmp fixCmp_gt_asymm (fun f => f ∈ fixes)
        (fixCmp_trans_on fixes hwf hconf) fixes (fun x hx => hx)
    · exact sortByCmp_pairwise fixCmp fixCmp_gt_asymm (fun f => f ∈ fixes)
        (fixCmp_trans_on fixes hwf hconf) fixes' (fun x hx => hperm.mem_iff.mpr hx)
    · intro x y hx hy
      exact fixCmp_antisymm_on fixes hwf hconf x y (mem_sortByCmp.mp hx) (mem_sortByCmp.mp hy)
  have hemp : fixes.isEmpty = fixes'.isEmpty := by
    cases fixes <;> cases fixes' <;>
      first
      | rfl
      | exact absurd hperm.length_eq (by simp)
  unfold apply_fixes_to_content
  rw [hemp, hsorteq]

/-- Witness for the amended C4: the spec's end-to-end scenario — two
whole-line fixes on lines 1 and 3 applied in either input order yield
the same corrected content. -/
theorem apply_fixes_order_invariant_witness :
    apply_fixes_to_content "line 1\nline 2\nline 3".data
        [⟨1, 1, none, none, "FIRST".data, ""⟩, ⟨3, 3, none, none, "THIRD".data, ""⟩] =
      apply_fixes_to_content "line 1\nline 2\nline 3".data
        [⟨3, 3, none, none, "THIRD".data, ""⟩, ⟨1, 1, none, none, "FIRST".data, ""⟩] :=
  apply_fixes_order_invariant "line 1\nline 2\nline 3".data
    [⟨1, 1, none, none, "FIRST".data, ""⟩, ⟨3, 3, none, none, "THIRD".data, ""⟩]
    [⟨3, 3, none, none, "THIRD".data, ""⟩, ⟨1, 1, none, none, "FIRST".data, ""⟩]
    (List.Perm.swap _ _ _)
    (by
      intro f hf
      rcases List.mem_cons.mp hf with h | hf2
      · subst h; exact ⟨by decide, fun cs ce h _ => Option.noConfusion h⟩
      rcases List.mem_cons.mp hf2 with h | hf3
      · subst h; exact ⟨by decide, fun cs ce h _ => Option.noConfusion h⟩
      · exact absurd hf3 (List.not_mem_nil f))
    rfl

/-- **C6, counterexample.** A single-line line-addressed fix (`line_start
= line_end = 1`, no columns) whose replacement contains `"\n"` is applied
verbatim, not split on line breaks: on CRLF content the result differs
from the claim's replace-with-split-lines semantics. -/
theorem apply_single_line_fix_not_split :
    apply_fixes_to_content "A\r\nB".data [⟨1, 1, none, none, "X\nY".data, ""⟩]
      = .ok "X\nY\r\nB".data ∧
    joinSep ['\r', '\n'] (rustLines "X\nY".data ++ [['B']])
      = "X\r\nY\r\nB".data ∧
    ("X\nY\r\nB".data : Str) ≠ "X\r\nY\r\nB".data := by
  refine ⟨rfl, rfl, by decide⟩

/-- **C8, counterexample.** `offset_to_position` on empty content returns
line `0` (not 1-indexed), and on `"ab"` (2 bytes, no trailing newline)
the out-of-range offset `2` yields `(1, 3)`, not the claimed clamp to
column 1. -/
theorem offset_to_position_not_one_indexed :
    offset_to_position (MarkdownParser.new []) 0 = (0, 1) ∧
    ¬ 1 ≤ (offset_to_position (MarkdownParser.new []) 0).1 ∧
    byteLen "ab".data = 2 ∧
    offset_to_position (MarkdownParser.new "ab".data) 2 = (1, 3) ∧
    offset_to_position (MarkdownParser.new "ab".data) 2 ≠ (1, 1) := by
  refine ⟨rfl, by decide, rfl, rfl, by decide⟩

/-- **C10, counterexample.** Two successful fix applications on content
ending with a line terminator whose outputs still end with `'\n'`:
an empty replacement leaving the final line empty (`"a\nb\n"` →
`"a\n"`), and a replacement that itself ends with `"\n"` (`"a\n"` →
`"X\n"`). -/
theorem apply_fixes_trailing_newline_retained :
    apply_fixes_to_content "a\nb\n".data [⟨2, 2, none, none, [], ""⟩]
      = .ok "a\n".data ∧
    ("a\n".data : Str).getLast? = some '\n' ∧
    apply_fixes_to_content "a\n".data [⟨1, 1, none, none, "X\n".data, ""⟩]
      = .ok "X\n".data ∧
    ("X\n".data : Str).getLast? = some '\n' := by
  exact ⟨rfl, rfl, rfl, rfl⟩

/-! ## Fix-application invariants -/


theorem apply_all_preserves (P : List Str → Prop) (Q : Fix → Prop)
    (hstep : ∀ ls f ls', Q f → P ls → apply_single_fix ls f = .ok ls' → P ls') :
    ∀ (fixes : List Fix) (ls ls' : List Str), (∀ f ∈ fixes, Q f) → P ls →
      apply_all ls fixes = .ok ls' → P ls' := by
  intro fixes
  induction fixes with
  | nil =>
    intro ls ls' _ hP hok
    exact (Except.ok.inj hok) ▸ hP
  | cons f rest ih =>
    intro ls ls' hQ hP hok
    unfold apply_all at hok
    cases hsf : apply_single_fix ls f with
    | error e => rw [hsf] at hok; exact absurd hok (by simp)
    | ok l2 =>
      rw [hsf] at hok
      exact ih l2 ls' (fun g hg => hQ g (List.mem_cons_of_mem f hg))
        (hstep ls f l2 (hQ f (List.mem_cons_self f rest)) hP hsf) hok

theorem apply_single_fix_no_newline (ls : List Str) (f : Fix) (ls' : List Str)
    (hQ : '\n' ∉ f.replacement) (hP : ∀ l ∈ ls, '\n' ∉ l)
    (hok : apply_single_fix ls f = .ok ls') : ∀ l ∈ ls', '\n' ∉ l := by
  unfold apply_single_fix at hok
  by_cases hb1 : f.line_start - 1 ≥ ls.length
  · rw [if_pos hb1] at hok; exact absurd hok (by simp)
  rw [if_neg hb1] at hok
  by_cases hb2 : f.line_end - 1 ≥ ls.length
  · rw [if_pos hb2] at hok; exact absurd hok (by simp)
  rw [if_neg hb2] at hok
  have hsplice : ∀ l ∈ ls.take (f.line_start - 1) ++ rustLines f.replacement ++
      ls.drop (f.line_end - 1 + 1), '\n' ∉ l := by
    intro l hl
    rcases List.mem_append.mp hl with h | h
    · rcases List.mem_append.mp h with h1 | h1
      · exact hP l (List.mem_of_mem_take h1)
      · exact rustLines_no_newline f.replacement l h1
    · exact hP l (List.mem_of_mem_drop h)
  have hsetrepl : ∀ l ∈ ls.set (f.line_start - 1) f.replacement, '\n' ∉ l := by
    intro l hl
    rcases List.mem_or_eq_of_mem_set hl with h | h
    · exact hP l h
    · exact h ▸ hQ
  cases hcs : f.column_start with
  | some cs =>
    cases hce : f.column_end with
    | some ce =>
      rw [hcs, hce] at hok
      dsimp only [] at hok
      by_cases hse : f.line_start - 1 = f.line_end - 1
      · rw [if_pos hse] at hok
        by_cases hcol : cs > (ls.getD (f.line_start - 1) []).length ∨
            ce > (ls.getD (f.line_start - 1) []).length
        · rw [if_pos hcol] at hok; exact absurd hok (by simp)
        · rw [if_neg hcol] at hok
          rw [← Except.ok.inj hok]
          intro l hl
          rcases List.mem_or_eq_of_mem_set hl with h | h
          · exact hP l h
          · subst h
            have hline : '\n' ∉ ls.getD (f.line_start - 1) [] := by
              have hlt : f.line_start - 1 < ls.length := by omega
              rw [List.getD_eq_getElem ls [] hlt]
              exact hP _ (List.getElem_mem hlt)
            intro hmem
            rcases List.mem_append.mp hmem with h1 | h1
            · rcases List.mem_append.mp h1 with h2 | h2
              · exact hline (List.mem_of_mem_take h2)
              · exact hQ h2
            · exact hline (List.mem_of_mem_drop h1)
      · rw [if_neg hse] at hok
        by_cases hpan : f.line_start - 1 > f.line_end - 1 + 1
        · rw [if_pos hpan] at hok; exact absurd hok (by simp)
        · rw [if_neg hpan] at hok
          rw [← Except.ok.inj hok]
          exact hsplice
    | none =>
      rw [hcs, hce] at hok
      dsimp only [] at hok
      by_cases hse : f.line_start - 1 = f.line_end - 1
      · rw [if_pos hse] at hok
        rw [← Except.ok.inj hok]
        exact hsetrepl
      · rw [if_neg hse] at hok
        by_cases hpan : f.line_start - 1 > f.line_end - 1 + 1
        · rw [if_pos hpan] at hok; exact absurd hok (by simp)
        · rw [if_neg hpan] at hok
          rw [← Except.ok.inj hok]
          exact hsplice
  | none =>
    rw [hcs] at hok
    cases hce : f.column_end <;> rw [hce] at hok <;> dsimp only [] at hok <;>
    · by_cases hse : f.line_start - 1 = f.line_end - 1
      · rw [if_pos hse] at hok
        rw [← Except.ok.inj hok]
        exact hsetrepl
      · rw [if_neg hse] at hok
        by_cases hpan : f.line_start - 1 > f.line_end - 1 + 1
        · rw [if_pos hpan] at hok; exact absurd hok (by simp)
        · rw [if_neg hpan] at hok
          rw [← Except.ok.inj hok]
          exact hsplice

/-- **C3, amended.** For content containing `"\r\n"` and a *non-empty*
fix list none of whose replacements contains `"\n"`, every line break of
a successfully corrected content is `"\r\n"`: the whole-file separator
decision picks `"\r\n"` and the processed lines stay free of `'\n'`.
(The two provisos are forced by the counterexample: the empty-fix-list
fast path returns mixed-ending input verbatim, and a replacement with an
embedded `"\n"` survives into the output.) -/
theorem apply_fixes_crlf_preserved (content : Str) (fixes : List Fix) (out : Str)
    (hcr : containsCRLF content = true)
    (hnl : ∀ f ∈ fixes, '\n' ∉ f.replacement)
    (hne : fixes ≠ [])
    (hok : apply_fixes_to_content content fixes = .ok out) :
    lfPrecededByCR out = true := by
  unfold apply_fixes_to_content at hok
  dsimp only [] at hok
  rw [if_neg (by simp [hne])] at hok
  by_cases hov : has_overlaps (sortByCmp fixCmp fixes) = true
  · rw [if_pos hov] at hok; exact absurd hok (by simp)
  rw [if_neg hov] at hok
  cases hall : apply_all (rustLines content) (sortByCmp fixCmp fixes) with
  | error e => rw [hall] at hok; exact absurd hok (by simp)
  | ok final =>
    rw [hall] at hok
    have hout : out = joinSep (detect_line_ending content) final := (Except.ok.inj hok).symm
    have hfinal : ∀ l ∈ final, '\n' ∉ l :=
      apply_all_preserves (fun lsx => ∀ l ∈ lsx, '\n' ∉ l) (fun f => '\n' ∉ f.replacement)
        apply_single_fix_no_newline (sortByCmp fixCmp fixes) (rustLines content) final
        (fun f hf => hnl f (mem_sortByCmp.mp hf)) (rustLines_no_newline content) hall
    have hsep : detect_line_ending content = ['\r', '\n'] := by
      unfold detect_line_ending; rw [if_pos hcr]
    rw [hout, hsep]
    exact lfOkAux_joinSep_crlf final hfinal ' '

/-- Witness for the amended C3: fixing line 2 of `"a\r\nb"` keeps CRLF
endings. -/
theorem apply_fixes_crlf_preserved_witness :
    lfPrecededByCR "a\r\nFIXED".data = true :=
  apply_fixes_crlf_preserved "a\r\nb".data [⟨2, 2, none, none, "FIXED".data, ""⟩]
    "a\r\nFIXED".data rfl (by decide) (by decide) rfl

/-! ## C6/C7: single-fix application -/

theorem apply_fixes_single (content : Str) (f : Fix) :
    apply_fixes_to_content content [f] =
      match apply_single_fix (rustLines content) f with
      | .ok final => .ok (joinSep (detect_line_ending content) final)
      | .error e => .error e := by
  show (if ([f] : List Fix).isEmpty then Except.ok content else _) = _
  rw [if_neg (by simp)]
  show (if has_overlaps (sortByCmp fixCmp [f]) then _ else _) = _
  rw [if_neg (by simp [sortByCmp, insertCmp, has_overlaps])]
  show (match apply_all (rustLines content) (sortByCmp fixCmp [f]) with
        | .ok final => Except.ok (joinSep (detect_line_ending content) final)
        | .error e => Except.error e) = _
  have hs : sortByCmp fixCmp [f] = [f] := rfl
  rw [hs]
  show (match (match apply_single_fix (rustLines content) f with
               | .ok lines2 => apply_all lines2 []
               | .error e => Except.error e) with
        | .ok final => Except.ok (joinSep (detect_line_ending content) final)
        | .error e => Except.error e) = _
  cases apply_single_fix (rustLines content) f with
  | ok l2 => rfl
  | error e => rfl

/-- **C6, amended.** A line-addressed fix (per the claim: columns absent,
or `line_start < line_end`) with a well-formed in-bounds span replaces
the closed line range `[line_start, line_end]` wholesale; for a
multi-line span the replacement is split on line breaks (so the line
count may shrink or grow), while for a single-line span the replacement
text is inserted verbatim as that line (not split). -/
theorem apply_line_fix_splice (content : Str) (f : Fix)
    (h1 : 1 ≤ f.line_start) (h2 : f.line_start ≤ f.line_end)
    (h3 : f.line_end ≤ (rustLines content).length)
    (hline : (f.column_start = none ∧ f.column_end = none) ∨ f.line_start < f.line_end) :
    apply_fixes_to_content content [f] =
      .ok (joinSep (detect_line_ending content)
        ((rustLines content).take (f.line_start - 1) ++
          (if f.line_start = f.line_end then [f.replacement] else rustLines f.replacement) ++
          (rustLines content).drop f.line_end)) := by
  have hlen : 1 ≤ (rustLines content).length := le_trans (le_trans h1 h2) h3
  have hstart : ¬ f.line_start - 1 ≥ (rustLines content).length := by omega
  have hend : ¬ f.line_end - 1 ≥ (rustLines content).length := by omega
  rw [apply_fixes_single]
  show (match (if f.line_start - 1 ≥ (rustLines content).length then _
               else if f.line_end - 1 ≥ (rustLines content).length then _
               else _ : Except LintError (List Str)) with
        | .ok final => Except.ok (joinSep (detect_line_ending content) final)
        | .error e => Except.error e) = _
  rw [if_neg hstart, if_neg hend]
  by_cases hse : f.line_start = f.line_end
  · -- single-line: columns must be absent (the `line_start < line_end`
    -- disjunct is impossible), so the wholesale branch runs `set`.
    rcases hline with ⟨hcs, hce⟩ | hlt
    · rw [hcs, hce]
      show (match (if f.line_start - 1 = f.line_end - 1 then
                    Except.ok ((rustLines content).set (f.line_start - 1) f.replacement)
                  else _ : Except LintError (List Str)) with
            | .ok final => Except.ok (joinSep (detect_line_ending content) final)
            | .error e => Except.error e) = _
      rw [if_pos (by omega)]
      rw [if_pos hse]
      have hidx : f.line_start - 1 < (rustLines content).length := by omega
      rw [List.set_eq_take_cons_drop f.replacement hidx]
      have hdrop : f.line_start - 1 + 1 = f.line_end := by omega
      rw [hdrop]
      simp
    · omega
  · -- multi-line splice
    have hlt : f.line_start < f.line_end := by omega
    have hne : ¬ f.line_start - 1 = f.line_end - 1 := by omega
    have hpan : ¬ f.line_start - 1 > f.line_end - 1 + 1 := by omega
    have hd1 : f.line_end - 1 + 1 = f.line_end := by omega
    rw [if_neg hse]
    cases hcs : f.column_start with
    | some cs =>
      cases hce : f.column_end with
      | some ce =>
        show (match (if f.line_start - 1 = f.line_end - 1 then _
                      else if f.line_start - 1 > f.line_end - 1 + 1 then _
                      else Except.ok ((rustLines content).take (f.line_start - 1) ++
                        rustLines f.replacement ++
                        (rustLines content).drop (f.line_end - 1 + 1))
                        : Except LintError (List Str)) with
              | .ok final => Except.ok (joinSep (detect_line_ending content) final)
              | .error e => Except.error e) = _
        rw [if_neg hne, if_neg hpan, hd1]
      | none =>
        show (match (if f.line_start - 1 = f.line_end - 1 then _
                      else if f.line_start - 1 > f.line_end - 1 + 1 then _
                      else Except.ok ((rustLines content).take (f.line_start - 1) ++
                        rustLines f.replacement ++
                        (rustLines content).drop (f.line_end - 1 + 1))
                        : Except LintError (List Str)) with
              | .ok final => Except.ok (joinSep (detect_line_ending content) final)
              | .error e => Except.error e) = _
        rw [if_neg hne, if_neg hpan, hd1]
    | none =>
      show (match (if f.line_start - 1 = f.line_end - 1 then _
                    else if f.line_start - 1 > f.line_end - 1 + 1 then _
                    else Except.ok ((rustLines content).take (f.line_start - 1) ++
                      rustLines f.replacement ++
                      (rustLines content).drop (f.line_end - 1 + 1))
                      : Except LintError (List Str)) with
            | .ok final => Except.ok (joinSep (detect_line_ending content) final)
            | .error e => Except.error e) = _
      rw [if_neg hne, if_neg hpan, hd1]

/-- Witness for the amended C6: `"A\nB\nC"` with one fix replacing lines
2–3 by `"X"` yields `"A\nX"`. -/
theorem apply_line_fix_splice_witness :
    apply_fixes_to_content "A\nB\nC".data [⟨2, 3, none, none, ['X'], ""⟩]
      = .ok "A\nX".data := by
  have h := apply_line_fix_splice "A\nB\nC".data ⟨2, 3, none, none, ['X'], ""⟩
    (by decide) (by decide) (by decide) (Or.inl ⟨rfl, rfl⟩)
  rw [h]
  rfl

/-- **C7.** A single-line fix carrying both columns operates on character
positions of the addressed line: if either column exceeds the line's
character count the result is an out-of-bounds Fix error, and otherwise
the characters from `column_start` (1-indexed, inclusive) up to
`column_end` (exclusive-at-end) are replaced by the replacement text. -/
theorem apply_column_fix_chars (content : Str) (f : Fix) (cs ce : Nat)
    (hcs : f.column_start = some cs) (hce : f.column_end = some ce)
    (hse : f.line_start = f.line_end) (h1 : 1 ≤ f.line_start)
    (h3 : f.line_start ≤ (rustLines content).length) :
    (cs > ((rustLines content).getD (f.line_start - 1) []).length ∨
        ce > ((rustLines content).getD (f.line_start - 1) []).length →
      apply_fixes_to_content content [f] =
        .error (.fixErr ("Fix column range " ++ toString cs ++ ".." ++ toString ce ++
          " out of bounds for line length " ++
          toString ((rustLines content).getD (f.line_start - 1) []).length))) ∧
    (cs ≤ ((rustLines content).getD (f.line_start - 1) []).length →
      ce ≤ ((rustLines content).getD (f.line_start - 1) []).length →
      apply_fixes_to_content content [f] =
        .ok (joinSep (detect_line_ending content)
          ((rustLines content).set (f.line_start - 1)
            (((rustLines content).getD (f.line_start - 1) []).take (cs - 1) ++
              f.replacement ++
              ((rustLines content).getD (f.line_start - 1) []).drop ce)))) := by
  have hstart : ¬ f.line_start - 1 ≥ (rustLines content).length := by omega
  have hend : ¬ f.line_end - 1 ≥ (rustLines content).length := by omega
  have heq : f.line_start - 1 = f.line_end - 1 := by omega
  constructor
  · intro hoob
    rw [apply_fixes_single]
    show (match (if f.line_start - 1 ≥ (rustLines content).length then _
                 else if f.line_end - 1 ≥ (rustLines content).length then _
                 else _ : Except LintError (List Str)) with
          | .ok final => Except.ok (joinSep (detect_line_ending content) final)
          | .error e => Except.error e) = _
    rw [if_neg hstart, if_neg hend, hcs, hce]
    show (match (if f.line_start - 1 = f.line_end - 1 then
                  if cs > ((rustLines content).getD (f.line_start - 1) []).length ∨
                      ce > ((rustLines content).getD (f.line_start - 1) []).length then
                    Except.error (.fixErr ("Fix column range " ++ toString cs ++ ".." ++
                      toString ce ++ " out of bounds for line length " ++
                      toString ((rustLines content).getD (f.line_start - 1) []).length))
                  else _
                 else _ : Except LintError (List Str)) with
          | .ok final => Except.ok (joinSep (detect_line_ending content) final)
          | .error e => Except.error e) = _
    rw [if_pos heq, if_pos hoob]
  · intro hc1 hc2
    rw [apply_fixes_single]
    show (match (if f.line_start - 1 ≥ (rustLines content).length then _
                 else if f.line_end - 1 ≥ (rustLines content).length then _
                 else _ : Except LintError (List Str)) with
          | .ok final => Except.ok (joinSep (detect_line_ending content) final)
          | .error e => Except.error e) = _
    rw [if_neg hstart, if_neg hend, hcs, hce]
    show (match (if f.line_start - 1 = f.line_end - 1 then
                  if cs > ((rustLines content).getD (f.line_start - 1) []).length ∨
                      ce > ((rustLines content).getD (f.line_start - 1) []).length then _
                  else
                    Except.ok ((rustLines content).set (f.line_start - 1)
                      (((rustLines content).getD (f.line_start - 1) []).take (cs - 1) ++
                        f.replacement ++
                        ((rustLines content).getD (f.line_start - 1) []).drop ce))
                 else _ : Except LintError (List Str)) with
          | .ok final => Except.ok (joinSep (detect_line_ending content) final)
          | .error e => Except.error e) = _
    rw [if_pos heq, if_neg (by omega)]

/-- Witness for C7: `column_start = 7`, `column_end = 11` on
`"hello world"` with replacement `"Rust"` yields `"hello Rust"`, and a
column beyond the line's character count yields the out-of-bounds Fix
error. -/
theorem apply_column_fix_chars_witness :
    apply_fixes_to_content "hello world".data [⟨1, 1, some 7, some 11, "Rust".data, ""⟩]
      = .ok "hello Rust".data ∧
    apply_fixes_to_content "hello".data [⟨1, 1, some 3, some 9, "x".data, ""⟩]
      = .error (.fixErr ("Fix column range " ++ toString 3 ++ ".." ++ toString 9 ++
          " out of bounds for line length " ++ toString 5)) := by
  constructor
  · have h := (apply_column_fix_chars "hello world".data
      ⟨1, 1, some 7, some 11, "Rust".data, ""⟩ 7 11 rfl rfl rfl (by decide) (by decide)).2
      (by decide) (by decide)
    rw [h]
    rfl
  · have h := (apply_column_fix_chars "hello".data
      ⟨1, 1, some 3, some 9, "x".data, ""⟩ 3 9 rfl rfl rfl (by decide) (by decide)).1
      (by decide)
    rw [h]
    rfl

/-! ## C5: config-driven dispatch -/

/-- **C5.** `lint_content`'s dispatch follows the config exactly.  For a
rule whose id maps to boolean `false`, or to a structured options value
whose `"enabled"` field is boolean `false`, the rule contributes nothing
regardless of its `check` function (it is never invoked); an absent id or
boolean `true` runs `check` with config `None`; a structured value
without `enabled: false` is passed to `check`.  Moreover — given the
registry invariants that `register` maintains (entries keyed by the
rule's own name, unique keys) and the rule contract that a check only
emits its own id — no violation carrying a disabled rule's id is ever
returned. -/
theorem lint_dispatch_follows_config (e : LintEngine) (content : Str) (r : Rule) :
    ((e.config.get r.name = some (.enabled false) →
        ∀ ch, rule_contribution e.config (MarkdownParser.new content) { r with check := ch } = []) ∧
      (∀ cfg, e.config.get r.name = some (.config cfg) →
        cfg.lookup "enabled" = some (.bool false) →
        ∀ ch, rule_contribution e.config (MarkdownParser.new content) { r with check := ch } = []) ∧
      (e.config.get r.name = none →
        rule_contribution e.config (MarkdownParser.new content) r =
          r.check (MarkdownParser.new content) none) ∧
      (e.config.get r.name = some (.enabled true) →
        rule_contribution e.config (MarkdownParser.new content) r =
          r.check (MarkdownParser.new content) none) ∧
      (∀ cfg, e.config.get r.name = some (.config cfg) →
        cfg.lookup "enabled" ≠ some (.bool false) →
        rule_contribution e.config (MarkdownParser.new content) r =
          r.check (MarkdownParser.new content) (some (.obj cfg)))) ∧
    ((e.config.get r.name = some (.enabled false) ∨
        ∃ cfg, e.config.get r.name = some (.config cfg) ∧
          cfg.lookup "enabled" = some (.bool false)) →
      r ∈ e.registry.all_rules →
      (∀ p ∈ e.registry.rules, p.2.name = p.1) →
      (e.registry.rules.map (fun p => p.1)).Nodup →
      (∀ r' ∈ e.registry.all_rules, ∀ cv v,
        v ∈ r'.check (MarkdownParser.new content) cv → v.rule = r'.name) →
      ∀ v ∈ lint_content e content, v.rule ≠ r.name) := by
  refine ⟨⟨?_, ?_, ?_, ?_, ?_⟩, ?_⟩
  · intro h ch
    simp [rule_contribution, dispatchConfigValue, h]
  · intro cfg h hlook ch
    simp [rule_contribution, dispatchConfigValue, h, hlook]
  · intro h
    simp [rule_contribution, dispatchConfigValue, h]
  · intro h
    simp [rule_contribution, dispatchConfigValue, h]
  · intro cfg h hlook
    have hd : dispatchConfigValue (e.config.get r.name) = some (some (.obj cfg)) := by
      rw [h]
      show (match cfg.lookup "enabled" with
            | some (Json.bool false) => none
            | _ => some (some (Json.obj cfg))) = some (some (Json.obj cfg))
      cases hl : cfg.lookup "enabled" with
      | none => rfl
      | some j =>
        cases j with
        | bool b =>
          cases b with
          | false => exact absurd hl hlook
          | true => rfl
        | null => rfl
        | num n => rfl
        | str s => rfl
        | arr xs => rfl
        | obj fs => rfl
    simp [rule_contribution, hd]
  · intro hdis hr hkeys hnodup hown v hv hveq
    have hvraw : v ∈ raw_violations e content := mem_sortByCmp.mp hv
    rcases List.mem_flatMap.mp hvraw with ⟨r', hr', hvr'⟩
    have hname : v.rule = r'.name := by
      unfold rule_contribution at hvr'
      cases hd : dispatchConfigValue (e.config.get r'.name) with
      | none => rw [hd] at hvr'; exact absurd hvr' (List.not_mem_nil v)
      | some cv => rw [hd] at hvr'; exact hown r' hr' cv v hvr'
    have heq : r'.name = r.name := hname ▸ hveq
    have hr'r : r' = r := by
      rcases List.mem_map.mp hr' with ⟨p', hp', hp'2⟩
      rcases List.mem_map.mp hr with ⟨p, hp, hp2⟩
      have hk1 : p.1 = r.name := by rw [← hkeys p hp, hp2]
      have hk2 : p'.1 = r.name := by rw [← hkeys p' hp', hp'2, heq]
      have hpp : p = p' :=
        List.inj_on_of_nodup_map hnodup hp hp' (hk1.trans hk2.symm)
      rw [← hp'2, ← hpp, hp2]
    have hempty : rule_contribution e.config (MarkdownParser.new content) r' = [] := by
      rw [hr'r]
      rcases hdis with h | ⟨cfg, h, hlook⟩
      · simp [rule_contribution, dispatchConfigValue, h]
      · simp [rule_contribution, dispatchConfigValue, h, hlook]
    rw [hempty] at hvr'
    exact absurd hvr' (List.not_mem_nil v)

/-- Witness for C5: a rule disabled by boolean `false` contributes
nothing whatever its check does; an unconfigured rule runs with `None`;
the lint output of a concrete two-rule engine with one disabled rule
contains no violation with the disabled id. -/
theorem lint_dispatch_follows_config_witness :
    rule_contribution ⟨[("MDA", RuleConfig.enabled false)]⟩ (MarkdownParser.new "x".data)
        ⟨"MDA", "", [], false, fun _ _ => [⟨2, none, "MDA", "m", none⟩]⟩ = [] ∧
    rule_contribution ⟨[]⟩ (MarkdownParser.new "x".data)
        ⟨"MDB", "", [], false, fun _ _ => [⟨1, none, "MDB", "m", none⟩]⟩
      = [⟨1, none, "MDB", "m", none⟩] ∧
    Violation.rule ⟨1, none, "MDB", "m", none⟩ ≠ "MDA" := by
  refine ⟨?_, ?_, ?_⟩
  · exact (lint_dispatch_follows_config ⟨⟨[("MDA", .enabled false)]⟩, ⟨[]⟩⟩ "x".data
      ⟨"MDA", "", [], false, fun _ _ => []⟩).1.1 rfl
      (fun _ _ => [⟨2, none, "MDA", "m", none⟩])
  · have h := (lint_dispatch_follows_config ⟨⟨[]⟩, ⟨[]⟩⟩ "x".data
      ⟨"MDB", "", [], false, fun _ _ => [⟨1, none, "MDB", "m", none⟩]⟩).1.2.2.1 rfl
    simpa using h
  · have h := (lint_dispatch_follows_config
        ⟨⟨[("MDA", .enabled false)]⟩,
          ⟨[("MDA", ⟨"MDA", "", [], false, fun _ _ => [⟨2, none, "MDA", "m", none⟩]⟩),
            ("MDB", ⟨"MDB", "", [], false, fun _ _ => [⟨1, none, "MDB", "m", none⟩]⟩)]⟩⟩
        "x".data
        ⟨"MDA", "", [], false, fun _ _ => [⟨2, none, "MDA", "m", none⟩]⟩).2
    refine h (Or.inl rfl) (by simp [RuleRegistry.all_rules]) ?_ (by decide)
      ?_ ⟨1, none, "MDB", "m", none⟩ (by decide)
    · intro p hp
      rcases List.mem_cons.mp hp with h1 | hp2
      · subst h1; rfl
      rcases List.mem_cons.mp hp2 with h1 | h3
      · subst h1; rfl
      · exact absurd h3 (List.not_mem_nil p)
    · intro r' hr' cv v hv
      rcases List.mem_cons.mp hr' with h1 | hr2
      · subst h1
        rcases List.mem_singleton.mp hv with h2
        rw [h2]
      rcases List.mem_cons.mp hr2 with h1 | h3
      · subst h1
        rcases List.mem_singleton.mp hv with h2
        rw [h2]
      · exact absurd h3 (List.not_mem_nil r')

/-! ## C8: offset conversion -/

/-- The cumulative byte span `offset_to_position` walks: each line's byte
length plus one terminator byte. -/
def lineSpan (ls : List Str) : Nat := (ls.map (fun l => byteLen l + 1)).sum

theorem offsetToPositionGo_snd_pos (offset : Nat) :
    ∀ (ls : List Str) (idx cur : Nat), 1 ≤ (offsetToPositionGo offset ls idx cur).2 := by
  intro ls
  induction ls with
  | nil => intro idx cur; exact le_refl 1
  | cons l rest ih =>
    intro idx cur
    unfold offsetToPositionGo
    by_cases h : offset < cur + (byteLen l + 1)
    · simp only [h, if_true]
      omega
    · simp only [h, if_false]
      exact ih (idx + 1) (cur + (byteLen l + 1))

theorem offsetToPositionGo_fst_ge (offset : Nat) :
    ∀ (ls : List Str) (idx cur : Nat), ls ≠ [] →
      idx + 1 ≤ (offsetToPositionGo offset ls idx cur).1 := by
  intro ls
  induction ls with
  | nil => intro idx cur h; exact absurd rfl h
  | cons l rest ih =>
    intro idx cur _
    unfold offsetToPositionGo
    by_cases h : offset < cur + (byteLen l + 1)
    · simp only [h, if_true]
      exact le_refl (idx + 1)
    · simp only [h, if_false]
      cases rest with
      | nil => exact le_refl (idx + 1)
      | cons l2 rest2 =>
        exact le_trans (by omega) (ih (idx + 1) (cur + (byteLen l + 1)) (by simp))

theorem offsetToPositionGo_clamp (offset : Nat) :
    ∀ (ls : List Str) (idx cur : Nat), cur + lineSpan ls ≤ offset →
      offsetToPositionGo offset ls idx cur = (idx + ls.length, 1) := by
  intro ls
  induction ls with
  | nil => intro idx cur _; rfl
  | cons l rest ih =>
    intro idx cur hle
    have hspan : lineSpan (l :: rest) = (byteLen l + 1) + lineSpan rest := by
      simp [lineSpan, Nat.add_comm]
    rw [hspan] at hle
    unfold offsetToPositionGo
    rw [if_neg (by omega)]
    rw [ih (idx + 1) (cur + (byteLen l + 1)) (by omega)]
    simp [List.length_cons]
    omega

/-- **C8, amended.** For every content with at least one line,
`offset_to_position` returns a pair whose components are both at least 1,
and every offset at or beyond the cumulative line span (each line counted
with one terminator byte) is clamped to `(line count, 1)`.  (On empty
content the fallthrough returns line 0, and an offset equal to the
content length of a file without trailing newline maps to the last
line's length + 1, not column 1.) -/
theorem offset_to_position_indexing (content : Str) (offset : Nat)
    (hne : rustLines content ≠ []) :
    1 ≤ (offset_to_position (MarkdownParser.new content) offset).1 ∧
    1 ≤ (offset_to_position (MarkdownParser.new content) offset).2 ∧
    (lineSpan (rustLines content) ≤ offset →
      offset_to_position (MarkdownParser.new content) offset =
        ((rustLines content).length, 1)) := by
  refine ⟨?_, ?_, ?_⟩
  · exact le_trans (by omega) (offsetToPositionGo_fst_ge offset (rustLines content) 0 0 hne)
  · exact offsetToPositionGo_snd_pos offset (rustLines content) 0 0
  · intro hsp
    have h := offsetToPositionGo_clamp offset (rustLines content) 0 0 (by omega)
    simpa using h

/-- Witness for the amended C8: on `"ab\ncd"` (two lines) the
out-of-range offset 100 clamps to `(2, 1)`, both components at least 1. -/
theorem offset_to_position_indexing_witness :
    1 ≤ (offset_to_position (MarkdownParser.new "ab\ncd".data) 100).1 ∧
    offset_to_position (MarkdownParser.new "ab\ncd".data) 100 = (2, 1) := by
  have h := offset_to_position_indexing "ab\ncd".data 100 (by decide)
  exact ⟨h.1, (h.2.2 (by decide)).trans (by decide)⟩

/-! ## C9: violation ordering -/

theorem vioCmp_gt_asymm (x y : Violation) (h : vioCmp x y = Ordering.gt) :
    vioCmp y x ≠ Ordering.gt := by
  intro h'
  have h1 := Nat.compare_eq_gt.mp h
  have h2 := Nat.compare_eq_gt.mp h'
  omega

theorem vioCmp_trans (x y z : Violation)
    (hxy : vioCmp x y ≠ Ordering.gt) (hyz : vioCmp y z ≠ Ordering.gt) :
    vioCmp x z ≠ Ordering.gt := by
  intro hgt
  have h1 : ¬ y.line < x.line := fun hl => hxy (Nat.compare_eq_gt.mpr hl)
  have h2 : ¬ z.line < y.line := fun hl => hyz (Nat.compare_eq_gt.mpr hl)
  have h3 := Nat.compare_eq_gt.mp hgt
  omega

theorem filter_insertCmp_vio (k : Nat) (a : Violation) (l : List Violation) :
    (insertCmp vioCmp a l).filter (fun v => v.line = k) =
      if a.line = k then a :: l.filter (fun v => v.line = k)
      else l.filter (fun v => v.line = k) := by
  induction l with
  | nil => by_cases h : a.line = k <;> simp [insertCmp, List.filter, h]
  | cons b l ih =>
    unfold insertCmp
    by_cases h : vioCmp a b = Ordering.gt
    · simp only [h, if_true]
      have hb : b.line < a.line := Nat.compare_eq_gt.mp h
      by_cases hak : a.line = k
      · have hbk : ¬ b.line = k := by omega
        simp [List.filter_cons, hbk, ih, hak]
      · by_cases hbk : b.line = k <;> simp [List.filter_cons, ih, hak, hbk]
    · simp only [h, if_false]
      by_cases hak : a.line = k <;> simp [List.filter_cons, hak]

theorem filter_sortByCmp_vio (k : Nat) (l : List Violation) :
    (sortByCmp vioCmp l).filter (fun v => v.line = k) =
      l.filter (fun v => v.line = k) := by
  induction l with
  | nil => rfl
  | cons a l ih =>
    show (insertCmp vioCmp a (sortByCmp vioCmp l)).filter _ = _
    rw [filter_insertCmp_vio]
    by_cases hak : a.line = k <;> simp [hak, ih, List.filter_cons]

/-- **C9.** For every engine and input, `lint_content`'s violation
sequence is non-decreasing in `line`, and the final sort is stable:
restricting the output to any fixed line number yields exactly the
rule-emission-ordered raw violations with that line number. -/
theorem lint_content_sorted_and_stable (e : LintEngine) (content : Str) :
    (lint_content e content).Pairwise (fun a b => a.line ≤ b.line) ∧
    ∀ k, (lint_content e content).filter (fun v => v.line = k) =
      (raw_violations e content).filter (fun v => v.line = k) := by
  constructor
  · have hp := sortByCmp_pairwise vioCmp vioCmp_gt_asymm (fun _ => True)
      (fun x y z _ _ _ => vioCmp_trans x y z)
      (raw_violations e content) (fun _ _ => trivial)
    refine hp.imp ?_
    intro a b hab
    have : ¬ b.line < a.line := fun hl => hab (Nat.compare_eq_gt.mpr hl)
    omega
  · intro k
    exact filter_sortByCmp_vio k (raw_violations e content)

/-! ## C10: trailing terminator -/
theorem mem_of_getLast?_eq {α : Type} {l : List α} {a : α} (h : l.getLast? = some a) : a ∈ l := by
  have hne : l ≠ [] := by intro hc; rw [hc] at h; exact Option.noConfusion h
  rw [List.getLast?_eq_getLast l hne] at h
  exact (Option.some.inj h) ▸ List.getLast_mem hne

theorem getLast?_drop_of_ne_nil {α : Type} (l : List α) (n : Nat) (h : l.drop n ≠ []) :
    (l.drop n).getLast? = l.getLast? := by
  have := List.getLast?_append_of_ne_nil (l.take n) h
  rw [List.take_append_drop] at this
  exact this.symm

theorem getLast?_set_eq {α : Type} (l : List α) (i : Nat) (x : α) (h : i < l.length) :
    (l.set i x).getLast? = if i = l.length - 1 then some x else l.getLast? := by
  rw [List.set_eq_take_cons_drop x h]
  by_cases hi : i = l.length - 1
  · rw [if_pos hi]
    have hd : l.drop (i + 1) = [] := List.drop_eq_nil_of_le (by omega)
    rw [hd]
    rw [List.getLast?_append_of_ne_nil (l.take i) (by simp : (x :: [] : List α) ≠ [])]
    rfl
  · rw [if_neg hi]
    have hd : l.drop (i + 1) ≠ [] := by
      intro hcon
      rw [List.drop_eq_nil_iff] at hcon
      omega
    rw [List.getLast?_append_of_ne_nil (l.take i) (by simp : (x :: l.drop (i + 1)) ≠ [])]
    rw [show (x :: l.drop (i + 1)) = [x] ++ l.drop (i + 1) from rfl]
    rw [List.getLast?_append_of_ne_nil [x] hd]
    exact getLast?_drop_of_ne_nil l (i + 1) hd

theorem splitInclusiveNewline_getLast (s : Str) (hs : s ≠ []) :
    ∃ p, (splitInclusiveNewline s).getLast? = some p ∧ p ≠ [] ∧ p.getLast? = s.getLast? := by
  induction s with
  | nil => exact absurd rfl hs
  | cons c rest ih =>
    unfold splitInclusiveNewline
    by_cases hc : c = '\n'
    · rw [if_pos hc]
      cases hrest : rest with
      | nil =>
        refine ⟨[c], rfl, List.noConfusion, ?_⟩
        rw [hc]
      | cons d t =>
        rcases ih (by simp [hrest]) with ⟨p, hp, hpne, hpl⟩
        have hspne : splitInclusiveNewline rest ≠ [] := by
          intro hcon
          exact (by simp [hrest] : rest ≠ []) ((splitInclusiveNewline_eq_nil_iff rest).mp hcon)
        refine ⟨p, ?_, hpne, ?_⟩
        · rw [← hrest]
          cases hsp : splitInclusiveNewline rest with
          | nil => exact absurd hsp hspne
          | cons q ps =>
            rw [List.getLast?_cons_cons]
            rw [hsp] at hp
            exact hp
        · rw [hpl, hrest, List.getLast?_cons_cons]
    · rw [if_neg hc]
      cases hsp : splitInclusiveNewline rest with
      | nil =>
        have hrest : rest = [] := (splitInclusiveNewline_eq_nil_iff rest).mp hsp
        refine ⟨[c], rfl, List.noConfusion, ?_⟩
        rw [hrest]
      | cons q ps =>
        have hrestne : rest ≠ [] := by
          intro hcon
          rw [hcon] at hsp
          exact List.noConfusion (hsp.symm.trans rfl)
        rcases ih hrestne with ⟨p, hp, hpne, hpl⟩
        rw [hsp] at hp
        cases hps : ps with
        | nil =>
          rw [hps] at hp
          have hpq : q = p := Option.some.inj ((List.getLast?_singleton q).symm.trans hp)
          have hqne : q ≠ [] := by rw [hpq]; exact hpne
          refine ⟨c :: q, by rw [List.getLast?_singleton], List.noConfusion, ?_⟩
          rw [show (c :: q).getLast? = q.getLast? from ?_, hpq, hpl]
          · cases rest with
            | nil => exact absurd rfl hrestne
            | cons d t => rw [List.getLast?_cons_cons]
          · rw [show (c :: q) = [c] ++ q from rfl]
            exact List.getLast?_append_of_ne_nil [c] hqne
        | cons r rs =>
          rw [hps] at hp
          refine ⟨p, ?_, hpne, ?_⟩
          · rw [List.getLast?_cons_cons]
            exact hp
          · rw [hpl]
            cases rest with
            | nil => exact absurd rfl hrestne
            | cons d t => rw [List.getLast?_cons_cons]



theorem rustLines_last_good (s : Str) (hs : s ≠ []) (hl : s.getLast? ≠ some '\n') :
    ∃ lp, (rustLines s).getLast? = some lp ∧ lp ≠ [] ∧ lp.getLast? ≠ some '\n' := by
  rcases splitInclusiveNewline_getLast s hs with ⟨p, hp, hpne, hpl⟩
  have hpl' : p.getLast? ≠ some '\n' := by rw [hpl]; exact hl
  have hid : rustLineOf p = p := by
    unfold rustLineOf
    rw [if_neg hpl']
  refine ⟨p, ?_, hpne, hpl'⟩
  rw [rustLines, List.getLast?_map, hp]
  show some (rustLineOf p) = some p
  rw [hid]



/-- The invariant C10 tracks through fix application: the line list is
non-empty and its last line is non-empty and does not end with `'\n'`. -/
def LastLineGood (ls : List Str) : Prop :=
  ∃ lp, ls.getLast? = some lp ∧ lp ≠ [] ∧ lp.getLast? ≠ some '\n'

theorem getD_of_getLast? (l : List Str) (lp : Str) (h : l.getLast? = some lp) :
    l.getD (l.length - 1) [] = lp := by
  have hne : l ≠ [] := by intro hc; rw [hc] at h; exact Option.noConfusion h
  have hlen : 0 < l.length := List.length_pos.mpr hne
  rw [List.getD_eq_getElem l [] (by omega)]
  rw [List.getLast?_eq_getLast l hne] at h
  rw [← Option.some.inj h]
  exact (List.getLast_eq_getElem l hne).symm

theorem joinSep_last_good (sep : Str) : ∀ (ls : List Str) (lp : Str),
    ls.getLast? = some lp → lp ≠ [] → (joinSep sep ls).getLast? = lp.getLast? := by
  intro ls
  induction ls with
  | nil => intro lp h _; exact absurd h (by simp)
  | cons x t ih =>
    intro lp h hne
    cases t with
    | nil =>
      have hx : lp = x := by
        rw [List.getLast?_singleton] at h
        exact (Option.some.inj h).symm
      rw [hx]
      rfl
    | cons y t2 =>
      have hh : (y :: t2).getLast? = some lp := by
        rw [← List.getLast?_cons_cons]
        exact h
      have hjr := ih lp hh hne
      have hjrne : joinSep sep (y :: t2) ≠ [] := by
        intro hcon
        rw [hcon] at hjr
        have h2 : lp.getLast? = none := hjr.symm
        rw [List.getLast?_eq_getLast lp hne] at h2
        exact Option.noConfusion h2
      show (x ++ sep ++ joinSep sep (y :: t2)).getLast? = lp.getLast?
      rw [List.getLast?_append_of_ne_nil (x ++ sep) hjrne]
      exact hjr

theorem apply_single_fix_last_good (ls : List Str) (f : Fix) (ls' : List Str)
    (hQ : f.replacement ≠ [] ∧ f.replacement.getLast? ≠ some '\n')
    (hP : LastLineGood ls)
    (hok : apply_single_fix ls f = .ok ls') : LastLineGood ls' := by
  rcases hP with ⟨lp, hlp, hlpne, hlpl⟩
  unfold apply_single_fix at hok
  by_cases hb1 : f.line_start - 1 ≥ ls.length
  · rw [if_pos hb1] at hok; exact absurd hok (by simp)
  rw [if_neg hb1] at hok
  by_cases hb2 : f.line_end - 1 ≥ ls.length
  · rw [if_pos hb2] at hok; exact absurd hok (by simp)
  rw [if_neg hb2] at hok
  -- the two line-based shapes, reused across column cases
  have hset : ∀ repl : Str, repl ≠ [] → repl.getLast? ≠ some '\n' →
      LastLineGood (ls.set (f.line_start - 1) repl) := by
    intro repl hr1 hr2
    rw [LastLineGood]
    by_cases hi : f.line_start - 1 = ls.length - 1
    · exact ⟨repl, by rw [getLast?_set_eq ls _ repl (by omega), if_pos hi], hr1, hr2⟩
    · exact ⟨lp, by rw [getLast?_set_eq ls _ repl (by omega), if_neg hi]; exact hlp,
        hlpne, hlpl⟩
  have hsplice : LastLineGood (ls.take (f.line_start - 1) ++ rustLines f.replacement ++
      ls.drop (f.line_end - 1 + 1)) := by
    by_cases hd : ls.drop (f.line_end - 1 + 1) = []
    · rw [hd, List.append_nil]
      rcases rustLines_last_good f.replacement hQ.1 hQ.2 with ⟨lq, h1, h2, h3⟩
      have hqne : rustLines f.replacement ≠ [] := by
        intro hcon; rw [hcon] at h1; exact Option.noConfusion h1
      exact ⟨lq, by rw [List.getLast?_append_of_ne_nil _ hqne]; exact h1, h2, h3⟩
    · refine ⟨lp, ?_, hlpne, hlpl⟩
      rw [List.getLast?_append_of_ne_nil _ hd, getLast?_drop_of_ne_nil ls _ hd]
      exact hlp
  cases hcs : f.column_start with
  | some cs =>
    cases hce : f.column_end with
    | some ce =>
      rw [hcs, hce] at hok
      dsimp only [] at hok
      by_cases hse : f.line_start - 1 = f.line_end - 1
      · rw [if_pos hse] at hok
        by_cases hcol : cs > (ls.getD (f.line_start - 1) []).length ∨
            ce > (ls.getD (f.line_start - 1) []).length
        · rw [if_pos hcol] at hok; exact absurd hok (by simp)
        · rw [if_neg hcol] at hok
          rw [← Except.ok.inj hok]
          -- the rebuilt line
          have hr1 : (ls.getD (f.line_start - 1) []).take (cs - 1) ++ f.replacement ++
              (ls.getD (f.line_start - 1) []).drop ce ≠ [] := by
            intro hcon
            rcases List.append_eq_nil.mp hcon with ⟨hcon1, _⟩
            rcases List.append_eq_nil.mp hcon1 with ⟨_, hcon2⟩
            exact hQ.1 hcon2
          by_cases hi : f.line_start - 1 = ls.length - 1
          · -- the last line is rebuilt; its final char comes from the
            -- untouched suffix of the old last line, or from the replacement
            have hchars : ls.getD (f.line_start - 1) [] = lp := by
              rw [hi]; exact getD_of_getLast? ls lp hlp
            refine ⟨_, by rw [getLast?_set_eq ls _ _ (by omega), if_pos hi], hr1, ?_⟩
            by_cases hafter : (ls.getD (f.line_start - 1) []).drop ce = []
            · rw [hafter, List.append_nil]
              rw [List.getLast?_append_of_ne_nil _ hQ.1]
              exact hQ.2
            · rw [List.getLast?_append_of_ne_nil _ hafter,
                getLast?_drop_of_ne_nil _ _ hafter, hchars]
              exact hlpl
          · exact ⟨lp, by rw [getLast?_set_eq ls _ _ (by omega), if_neg hi]; exact hlp,
              hlpne, hlpl⟩
      · rw [if_neg hse] at hok
        by_cases hpan : f.line_start - 1 > f.line_end - 1 + 1
        · rw [if_pos hpan] at hok; exact absurd hok (by simp)
        · rw [if_neg hpan] at hok
          rw [← Except.ok.inj hok]
          exact hsplice
    | none =>
      rw [hcs, hce] at hok
      dsimp only [] at hok
      by_cases hse : f.line_start - 1 = f.line_end - 1
      · rw [if_pos hse] at hok
        rw [← Except.ok.inj hok]
        exact hset f.replacement hQ.1 hQ.2
      · rw [if_neg hse] at hok
        by_cases hpan : f.line_start - 1 > f.line_end - 1 + 1
        · rw [if_pos hpan] at hok; exact absurd hok (by simp)
        · rw [if_neg hpan] at hok
          rw [← Except.ok.inj hok]
          exact hsplice
  | none =>
    rw [hcs] at hok
    cases hce : f.column_end <;> rw [hce] at hok <;> dsimp only [] at hok <;>
    · by_cases hse : f.line_start - 1 = f.line_end - 1
      · rw [if_pos hse] at hok
        rw [← Except.ok.inj hok]
        exact hset f.replacement hQ.1 hQ.2
      · rw [if_neg hse] at hok
        by_cases hpan : f.line_start - 1 > f.line_end - 1 + 1
        · rw [if_pos hpan] at hok; exact absurd hok (by simp)
        · rw [if_neg hpan] at hok
          rw [← Except.ok.inj hok]
          exact hsplice



/-- **C10, amended.** For content ending with a line terminator and a
non-empty fix list on which `apply_fixes_to_content` succeeds, the
corrected content does not end with a line terminator, *provided* the
content's final line is non-empty and no fix's replacement is empty or
ends with `"\n"` (both provisos forced by the counterexample): the
content is split into terminator-stripped lines and rejoined with the
separator only between lines, so the input's trailing terminator is
dropped and never reintroduced. -/
theorem apply_fixes_no_trailing_terminator (content : Str) (fixes : List Fix) (out : Str)
    (hterm : content.getLast? = some '\n')
    (hlast : (rustLines content).getLast? ≠ some [])
    (hrepl : ∀ f ∈ fixes, f.replacement ≠ [] ∧ f.replacement.getLast? ≠ some '\n')
    (hne : fixes ≠ [])
    (hok : apply_fixes_to_content content fixes = .ok out) :
    out ≠ [] ∧ out.getLast? ≠ some '\n' := by
  have hcne : content ≠ [] := by intro h; rw [h] at hterm; exact Option.noConfusion hterm
  have hlne : rustLines content ≠ [] := by
    intro h
    exact hcne ((splitInclusiveNewline_eq_nil_iff content).mp (List.map_eq_nil_iff.mp h))
  have hP0 : LastLineGood (rustLines content) := by
    refine ⟨(rustLines content).getLast hlne, List.getLast?_eq_getLast _ hlne, ?_, ?_⟩
    · intro h
      exact hlast (by rw [List.getLast?_eq_getLast _ hlne, h])
    · intro h
      exact rustLines_no_newline content _ (List.getLast_mem hlne) (mem_of_getLast?_eq h)
  unfold apply_fixes_to_content at hok
  dsimp only [] at hok
  rw [if_neg (by simp [hne])] at hok
  by_cases hov : has_overlaps (sortByCmp fixCmp fixes) = true
  · rw [if_pos hov] at hok; exact absurd hok (by simp)
  rw [if_neg hov] at hok
  cases hall : apply_all (rustLines content) (sortByCmp fixCmp fixes) with
  | error e => rw [hall] at hok; exact absurd hok (by simp)
  | ok final =>
    rw [hall] at hok
    have hout : out = joinSep (detect_line_ending content) final := (Except.ok.inj hok).symm
    have hfinal : LastLineGood final :=
      apply_all_preserves LastLineGood
        (fun f => f.replacement ≠ [] ∧ f.replacement.getLast? ≠ some '\n')
        apply_single_fix_last_good (sortByCmp fixCmp fixes) (rustLines content) final
        (fun f hf => hrepl f (mem_sortByCmp.mp hf)) hP0 hall
    rcases hfinal with ⟨lp, hlp, hlpne, hlpl⟩
    have hj := joinSep_last_good (detect_line_ending content) final lp hlp hlpne
    rw [hout]
    constructor
    · intro hcon
      rw [hcon] at hj
      have h2 : lp.getLast? = none := hj.symm
      rw [List.getLast?_eq_getLast lp hlpne] at h2
      exact Option.noConfusion h2
    · rw [hj]; exact hlpl

/-- Witness for the amended C10: fixing line 2 of `"a\nb\n"` with
`"X"` yields `"a\nX"`, with the trailing terminator dropped. -/
theorem apply_fixes_no_trailing_terminator_witness :
    ("a\nX".data : Str) ≠ [] ∧ ("a\nX".data : Str).getLast? ≠ some '\n' :=
  apply_fixes_no_trailing_terminator "a\nb\n".data [⟨2, 2, none, none, ['X'], ""⟩]
    "a\nX".data rfl (by decide) (by decide) (by decide) rfl

end Markdownlint
